import Mathlib

/-!
Verification of the dirty-rectangle renderer core (`_gm.c`).

The development shallowly embeds the two C functions of the source,
`mk_disjoint` (rectangle set algebra by coordinate compression) and
`fastdraw` (the frame compositor), and proves the spec's claims about them.

Machine integers of the source are modelled as `Int` (the rectangle
coordinates are small screen coordinates; the source performs no wrapping
arithmetic on them), lists (`PyObject*` sequences) as `List`, and the
drawable capability object as a `Graphic` structure whose callback slots
are explicit function/option fields.
-/

/-- A `pygame.Rect`: integer position and size.  Degenerate rectangles
(`w = 0` or `h = 0`, or negative sizes) denote the empty region. -/
structure Rect where
  x : Int
  y : Int
  w : Int
  h : Int
deriving DecidableEq, Repr

/-- Non-degeneracy check `r.w > 0 && r.h > 0`, as written in the source. -/
def Rect.nonDeg (r : Rect) : Bool :=
  decide (0 < r.w) && decide (0 < r.h)

/-- Integer-point membership in the half-open region
`[x, x+w) × [y, y+h)` denoted by a rectangle.  Since all rectangle data
are integers, region equality is point-set equality over `Int × Int`. -/
def Rect.memb (r : Rect) (px py : Int) : Bool :=
  decide (r.x ≤ px) && decide (px < r.x + r.w) &&
  decide (r.y ≤ py) && decide (py < r.y + r.h)

/-- `set_add` from the source: linear-scan membership test, append when
absent.  (The C version writes into a preallocated array and returns the
size increment; here the grown list is returned directly.) -/
def set_add (arr : List Int) (v : Int) : List Int :=
  if v ∈ arr then arr else arr ++ [v]

/-- The edge-collection loop of `mk_disjoint`: for every rectangle of the
concatenated `add ++ rm` input, both coordinates produced by `f` and `g`
are inserted with `set_add`.  Note the source inserts the edges of every
rectangle, degenerate ones included. -/
def edgeFold (f g : Rect → Int) (rects : List Rect) : List Int :=
  rects.foldl (fun acc r => set_add (set_add acc (f r)) (g r)) []

/-- The deduplicated x-edges (`edges[0]`) before sorting. -/
def xEdgesRaw (rects : List Rect) : List Int :=
  edgeFold (fun r => r.x) (fun r => r.x + r.w) rects

/-- The deduplicated y-edges (`edges[1]`) before sorting. -/
def yEdgesRaw (rects : List Rect) : List Int :=
  edgeFold (fun r => r.y) (fun r => r.y + r.h) rects

/-- Sorted x-edge list.  The source sorts with its hand-rolled
`quicksort`; on a duplicate-free array any comparison sort produces the
same (unique) ascending arrangement, modelled here by `insertionSort`. -/
def xEdges (rects : List Rect) : List Int :=
  List.insertionSort (· ≤ ·) (xEdgesRaw rects)

/-- Sorted y-edge list (`edges[1]` after `quicksort`). -/
def yEdges (rects : List Rect) : List Int :=
  List.insertionSort (· ≤ ·) (yEdgesRaw rects)

/-- List lookup with default `0`, for the C array accesses `edges[i]`. -/
def nth (l : List Int) (i : Nat) : Int :=
  l.getD i 0

/-- Index of a value in an edge array: the C helper `find` scans forward
for the first occurrence.  On the sorted duplicate-free edge arrays every
occurrence is first, so `find` agrees with `indexOf` (the `row0`/`col0`
start offsets passed in the source never skip the match). -/
def eidx (l : List Int) (v : Int) : Nat :=
  List.indexOf v l

/-- The grid-marking condition of `mk_disjoint` for one rectangle: the
source skips degenerate rectangles (`r.w > 0 && r.h > 0`) and otherwise
marks the cells `row0 ≤ i < row1`, `col0 ≤ j < col1` where the row/col
bounds are the `find` indices of the rectangle's edges. -/
def markCond (xs ys : List Int) (r : Rect) (i j : Nat) : Bool :=
  decide (0 < r.w) && decide (0 < r.h) &&
  decide (eidx ys r.y ≤ i) && decide (i < eidx ys (r.y + r.h)) &&
  decide (eidx xs r.x ≤ j) && decide (j < eidx xs (r.x + r.w))

/-- Flag value of grid cell `(i, j)`: bit `2` if some `add` rectangle
marks it, bit `1` if some `rm` rectangle marks it (the source ORs the
two disjoint bits into the cell, which is this sum). -/
def gridFlag (add rm : List Rect) (xs ys : List Int) (i j : Nat) : Nat :=
  (if add.any (fun r => markCond xs ys r i j) then 2 else 0) +
  (if rm.any (fun r => markCond xs ys r i j) then 1 else 0)

/-- Scan state of the subrect-generation loop: the output list `rs`, the
`in_rect` flag and the pending run's row `r_i` and left edge `r_left`. -/
structure ScanSt where
  acc : List Rect
  inRect : Bool
  rI : Nat
  rLeft : Int
deriving Repr

/-- The rectangle emitted when a run is closed by a row change or by the
end of the grid: its right edge is the last x-edge `edges[0][n-1]`. -/
def rowEndRect (xs ys : List Int) (rI : Nat) (rLeft : Int) : Rect :=
  ⟨rLeft, nth ys rI, nth xs (xs.length - 1) - rLeft, nth ys (rI + 1) - nth ys rI⟩

/-- The rectangle emitted when a run is closed mid-row at column `j`:
its right edge is `edges[0][j]`. -/
def midRect (xs ys : List Int) (rI : Nat) (rLeft : Int) (j : Nat) : Rect :=
  ⟨rLeft, nth ys rI, nth xs j - rLeft, nth ys (rI + 1) - nth ys rI⟩

/-- One iteration of the subrect-generation loop of `mk_disjoint` on cell
`c = (i, j)`: first the row-change close, then either extend/open a run
on a cell whose flag is exactly `2`, or close the pending run. -/
def scanStep (xs ys : List Int) (flag : Nat → Nat → Nat) (s : ScanSt)
    (c : Nat × Nat) : ScanSt :=
  let s1 := if s.inRect && (c.1 != s.rI) then
      { s with inRect := false, acc := s.acc ++ [rowEndRect xs ys s.rI s.rLeft] }
    else s
  if flag c.1 c.2 == 2 then
    if s1.inRect then s1
    else { s1 with inRect := true, rI := c.1, rLeft := nth xs c.2 }
  else if s1.inRect then
    { s1 with inRect := false, acc := s1.acc ++ [midRect xs ys s1.rI s1.rLeft c.2] }
  else s1

/-- Row-major enumeration of the grid cells, as the two nested loops of
the source. -/
def gridCells (nRows nCols : Nat) : List (Nat × Nat) :=
  (List.range nRows).flatMap (fun i => (List.range nCols).map (fun j => (i, j)))

/-- `mk_disjoint` from the source: edge collection and sorting, grid
marking, and the row-major scan emitting maximal per-row runs of
`ADD`-only cells, with a final close of a run still open at grid end. -/
def mk_disjoint (add rm : List Rect) : List Rect :=
  let xs := xEdges (add ++ rm)
  let ys := yEdges (add ++ rm)
  let st := (gridCells (ys.length - 1) (xs.length - 1)).foldl
    (scanStep xs ys (gridFlag add rm xs ys)) ⟨[], false, 0, 0⟩
  if st.inRect then st.acc ++ [rowEndRect xs ys st.rI st.rLeft] else st.acc

example : mk_disjoint [⟨0, 0, 10, 10⟩] [] = [⟨0, 0, 10, 10⟩] := by decide
example : mk_disjoint [⟨0, 0, 10, 10⟩] [⟨0, 0, 5, 10⟩] = [⟨5, 0, 5, 10⟩] := by decide
example : mk_disjoint [⟨0, 0, 10, 10⟩, ⟨20, 0, 10, 10⟩] []
    = [⟨0, 0, 10, 10⟩, ⟨20, 0, 10, 10⟩] := by decide
example : mk_disjoint [⟨0, 0, 10, 10⟩] [⟨0, 0, 10, 10⟩] = [] := by decide
example : mk_disjoint [⟨0, 0, 4, 4⟩] [⟨1, 1, 2, 2⟩]
    = [⟨0, 0, 4, 1⟩, ⟨0, 1, 1, 2⟩, ⟨3, 1, 1, 2⟩, ⟨0, 3, 4, 1⟩] := by decide

/-!
## Run decomposition of one grid row

`runsCore b n j cur` describes the run-finding automaton of the
subrect-generation loop on positions `j, j+1, …, j+n-1` of one row:
`cur` is the start column of the currently open run (if any), the result
is the list of closed runs `(start, stop)` together with the run still
open at the end.  `runs b m` closes a run still open at column `m`
against the row end, as the source does with the last x-edge.
-/

def runsCore (b : Nat → Bool) : Nat → Nat → Option Nat → List (Nat × Nat) × Option Nat
  | 0, _, cur => ([], cur)
  | n + 1, j, cur =>
    if b j then
      match cur with
      | some s => runsCore b n (j + 1) (some s)
      | none => runsCore b n (j + 1) (some j)
    else
      match cur with
      | some s =>
        let p := runsCore b n (j + 1) none
        ((s, j) :: p.1, p.2)
      | none => runsCore b n (j + 1) none

/-- The maximal runs of `true` cells of `b` on `[0, m)`, as half-open
column-index intervals, in left-to-right order. -/
def runs (b : Nat → Bool) (m : Nat) : List (Nat × Nat) :=
  match runsCore b m 0 none with
  | (l, some s) => l ++ [(s, m)]
  | (l, none) => l

/-- The output rectangle of run `se` in grid row `i`: one grid row tall,
spanning the x-edges of the run's column range. -/
def runRect (xs ys : List Int) (i : Nat) (se : Nat × Nat) : Rect :=
  ⟨nth xs se.1, nth ys i, nth xs se.2 - nth xs se.1, nth ys (i + 1) - nth ys i⟩

/-- Whether grid cell `(i, j)` is covered by `add` only (flag exactly
`ADD = 2`), the emission condition of the scan. -/
def addOnly (flag : Nat → Nat → Nat) (i j : Nat) : Bool :=
  flag i j == 2

/-- The spec's description of the subrect generation (`specRowRects`):
scan rows top to bottom; within each row emit one rectangle per maximal
horizontal run of `ADD`-only cells, one grid row tall, never merging
vertically, in row-major then column order. -/
def specRowRects (add rm : List Rect) : List Rect :=
  let xs := xEdges (add ++ rm)
  let ys := yEdges (add ++ rm)
  (List.range (ys.length - 1)).flatMap
    (fun i => (runs (addOnly (gridFlag add rm xs ys) i) (xs.length - 1)).map
      (runRect xs ys i))

/-- Correspondence between a scan state and the abstract row automaton
state `(A, cur)` while processing row `i`. -/
def stRep (xs : List Int) (i : Nat) (A : List Rect) (cur : Option Nat)
    (s : ScanSt) : Prop :=
  s.acc = A ∧
  match cur with
  | none => s.inRect = false
  | some st => s.inRect = true ∧ s.rI = i ∧ s.rLeft = nth xs st

/-- The rectangle a carried-over open run contributes when it is closed
at a row change (or at the end of the grid). -/
def carryRects (xs ys : List Int) (iprev : Nat) : Option Nat → List Rect
  | none => []
  | some st => [runRect xs ys iprev (st, xs.length - 1)]

/-- The final close after the cell loops of `mk_disjoint`. -/
def finishScan (xs ys : List Int) (s : ScanSt) : List Rect :=
  if s.inRect then s.acc ++ [rowEndRect xs ys s.rI s.rLeft] else s.acc

lemma foldl_flatMap {α β γ : Type} (g : γ → β → γ) (f : α → List β) :
    ∀ (l : List α) (s : γ),
    (l.flatMap f).foldl g s = l.foldl (fun s a => (f a).foldl g s) s := by
  intro l
  induction l with
  | nil => intro s; rfl
  | cons a t ih =>
    intro s
    simp only [List.flatMap_cons, List.foldl_append, List.foldl_cons, ih]

lemma rowEndRect_eq_runRect (xs ys : List Int) (i st : Nat) :
    rowEndRect xs ys i (nth xs st) = runRect xs ys i (st, xs.length - 1) := rfl

lemma midRect_eq_runRect (xs ys : List Int) (i st j : Nat) :
    midRect xs ys i (nth xs st) j = runRect xs ys i (st, j) := rfl

lemma scanStep_preclose (xs ys : List Int) (flag : Nat → Nat → Nat)
    (s : ScanSt) (c : Nat × Nat) (h1 : s.inRect = true) (h2 : c.1 ≠ s.rI) :
    scanStep xs ys flag s c =
      scanStep xs ys flag
        { s with inRect := false, acc := s.acc ++ [rowEndRect xs ys s.rI s.rLeft] } c := by
  unfold scanStep
  simp [h1, h2]

lemma scanStep_open_extend (xs ys : List Int) (flag : Nat → Nat → Nat)
    (s : ScanSt) (i j : Nat) (hin : s.inRect = true) (hri : s.rI = i)
    (hf : flag i j = 2) : scanStep xs ys flag s (i, j) = s := by
  unfold scanStep
  simp [hin, hri, hf]

lemma scanStep_open_close (xs ys : List Int) (flag : Nat → Nat → Nat)
    (s : ScanSt) (i j : Nat) (hin : s.inRect = true) (hri : s.rI = i)
    (hf : flag i j ≠ 2) :
    scanStep xs ys flag s (i, j) =
      { s with inRect := false, acc := s.acc ++ [midRect xs ys s.rI s.rLeft j] } := by
  unfold scanStep
  simp [hin, hri, hf]

lemma scanStep_closed_open (xs ys : List Int) (flag : Nat → Nat → Nat)
    (s : ScanSt) (i j : Nat) (hin : s.inRect = false) (hf : flag i j = 2) :
    scanStep xs ys flag s (i, j) =
      { s with inRect := true, rI := i, rLeft := nth xs j } := by
  unfold scanStep
  simp [hin, hf]

lemma scanStep_closed_skip (xs ys : List Int) (flag : Nat → Nat → Nat)
    (s : ScanSt) (i j : Nat) (hin : s.inRect = false) (hf : flag i j ≠ 2) :
    scanStep xs ys flag s (i, j) = s := by
  unfold scanStep
  simp [hin, hf]

lemma scan_inner (xs ys : List Int) (flag : Nat → Nat → Nat) (i : Nat) :
    ∀ (n j : Nat) (A : List Rect) (cur : Option Nat) (s : ScanSt),
    stRep xs i A cur s →
    stRep xs i
      (A ++ ((runsCore (addOnly flag i) n j cur).1).map (runRect xs ys i))
      (runsCore (addOnly flag i) n j cur).2
      (((List.range' j n).map (fun c => (i, c))).foldl (scanStep xs ys flag) s) := by
  intro n
  induction n with
  | zero =>
    intro j A cur s hrep
    simpa [runsCore] using hrep
  | succ n ih =>
    intro j A cur s hrep
    rw [List.range'_succ]
    simp only [List.map_cons, List.foldl_cons]
    by_cases hf : flag i j = 2
    · have hb : addOnly flag i j = true := by simp [addOnly, hf]
      cases cur with
      | some st =>
        obtain ⟨hacc, hin, hri, hrl⟩ := hrep
        rw [scanStep_open_extend xs ys flag s i j hin hri hf]
        have hrc : runsCore (addOnly flag i) (n + 1) j (some st)
            = runsCore (addOnly flag i) n (j + 1) (some st) := by
          simp [runsCore, hb]
        rw [hrc]
        exact ih (j + 1) A (some st) s ⟨hacc, hin, hri, hrl⟩
      | none =>
        obtain ⟨hacc, hin⟩ := hrep
        rw [scanStep_closed_open xs ys flag s i j hin hf]
        have hrc : runsCore (addOnly flag i) (n + 1) j none
            = runsCore (addOnly flag i) n (j + 1) (some j) := by
          simp [runsCore, hb]
        rw [hrc]
        exact ih (j + 1) A (some j) _ ⟨hacc, rfl, rfl, rfl⟩
    · have hb : addOnly flag i j = false := by simp [addOnly, hf]
      cases cur with
      | some st =>
        obtain ⟨hacc, hin, hri, hrl⟩ := hrep
        rw [scanStep_open_close xs ys flag s i j hin hri hf]
        have hrc : runsCore (addOnly flag i) (n + 1) j (some st)
            = ((st, j) :: (runsCore (addOnly flag i) n (j + 1) none).1,
               (runsCore (addOnly flag i) n (j + 1) none).2) := by
          simp [runsCore, hb]
        rw [hrc]
        have hrep2 : stRep xs i (A ++ [runRect xs ys i (st, j)]) none
            { s with inRect := false, acc := s.acc ++ [midRect xs ys s.rI s.rLeft j] } := by
          refine ⟨?_, rfl⟩
          simp [hacc, hri, hrl, midRect_eq_runRect]
        have := ih (j + 1) (A ++ [runRect xs ys i (st, j)]) none _ hrep2
        simpa [List.append_assoc] using this
      | none =>
        obtain ⟨hacc, hin⟩ := hrep
        rw [scanStep_closed_skip xs ys flag s i j hin hf]
        have hrc : runsCore (addOnly flag i) (n + 1) j none
            = runsCore (addOnly flag i) n (j + 1) none := by
          simp [runsCore, hb]
        rw [hrc]
        exact ih (j + 1) A none s ⟨hacc, hin⟩

lemma scan_row (xs ys : List Int) (flag : Nat → Nat → Nat) (i iprev : Nat)
    (m : Nat) (hpos : 0 < m)
    (A : List Rect) (cur : Option Nat) (s : ScanSt)
    (hrep : stRep xs iprev A cur s) (hne : ∀ st, cur = some st → iprev ≠ i) :
    stRep xs i
      (A ++ carryRects xs ys iprev cur
         ++ ((runsCore (addOnly flag i) m 0 none).1).map (runRect xs ys i))
      (runsCore (addOnly flag i) m 0 none).2
      (((List.range' 0 m).map (fun c => (i, c))).foldl (scanStep xs ys flag) s) := by
  cases cur with
  | none =>
    obtain ⟨hacc, hin⟩ := hrep
    have := scan_inner xs ys flag i m 0 A none s ⟨hacc, hin⟩
    simpa [carryRects] using this
  | some st =>
    obtain ⟨hacc, hin, hri, hrl⟩ := hrep
    obtain ⟨k, rfl⟩ : ∃ k, m = k + 1 := ⟨m - 1, (Nat.succ_pred_eq_of_pos hpos).symm⟩
    have hne2 : (i, 0).1 ≠ s.rI := by
      rw [hri]
      exact (hne st rfl).symm
    have hpre := scanStep_preclose xs ys flag s (i, 0) hin hne2
    have hrep2 : stRep xs i (A ++ carryRects xs ys iprev (some st)) none
        { s with inRect := false, acc := s.acc ++ [rowEndRect xs ys s.rI s.rLeft] } := by
      refine ⟨?_, rfl⟩
      simp [hacc, hri, hrl, carryRects, rowEndRect_eq_runRect]
    have hfold : (((List.range' 0 (k + 1)).map (fun c => (i, c))).foldl (scanStep xs ys flag) s)
        = (((List.range' 0 (k + 1)).map (fun c => (i, c))).foldl (scanStep xs ys flag)
            { s with inRect := false, acc := s.acc ++ [rowEndRect xs ys s.rI s.rLeft] }) := by
      rw [List.range'_succ]
      simp only [List.map_cons, List.foldl_cons]
      rw [hpre]
    rw [hfold]
    have := scan_inner xs ys flag i (k + 1) 0 (A ++ carryRects xs ys iprev (some st))
      none _ hrep2
    simpa [List.append_assoc] using this

lemma runs_split (xs ys : List Int) (flag : Nat → Nat → Nat) (m : Nat)
    (hm : xs.length - 1 = m) (r : Nat) :
    (runs (addOnly flag r) m).map (runRect xs ys r)
      = ((runsCore (addOnly flag r) m 0 none).1).map (runRect xs ys r)
        ++ carryRects xs ys r (runsCore (addOnly flag r) m 0 none).2 := by
  unfold runs
  rcases h : runsCore (addOnly flag r) m 0 none with ⟨l, c⟩
  cases c with
  | none => simp [carryRects]
  | some st => simp [carryRects, hm]

lemma scan_rows (xs ys : List Int) (flag : Nat → Nat → Nat) (m : Nat)
    (hm : xs.length - 1 = m) (hpos : 0 < m) :
    ∀ (n i iprev : Nat) (A : List Rect) (cur : Option Nat) (s : ScanSt),
    stRep xs iprev A cur s → (∀ st, cur = some st → iprev < i) →
    finishScan xs ys
      ((List.range' i n).foldl
        (fun s r => (((List.range' 0 m).map (fun c => (r, c))).foldl (scanStep xs ys flag) s)) s)
    = A ++ carryRects xs ys iprev cur
        ++ (List.range' i n).flatMap (fun r => (runs (addOnly flag r) m).map (runRect xs ys r)) := by
  intro n
  induction n with
  | zero =>
    intro i iprev A cur s hrep hlt
    cases cur with
    | none =>
      obtain ⟨hacc, hin⟩ := hrep
      simp [finishScan, hin, hacc, carryRects]
    | some st =>
      obtain ⟨hacc, hin, hri, hrl⟩ := hrep
      simp [finishScan, hin, hacc, hri, hrl, carryRects, rowEndRect_eq_runRect]
  | succ n ih =>
    intro i iprev A cur s hrep hlt
    rw [List.range'_succ]
    simp only [List.foldl_cons, List.flatMap_cons]
    have hrow := scan_row xs ys flag i iprev m hpos A cur s hrep
      (fun st hst => Nat.ne_of_lt (hlt st hst))
    have := ih (i + 1) i
      (A ++ carryRects xs ys iprev cur
        ++ ((runsCore (addOnly flag i) m 0 none).1).map (runRect xs ys i))
      (runsCore (addOnly flag i) m 0 none).2 _ hrow
      (fun st hst => Nat.lt_succ_self i)
    rw [this, runs_split xs ys flag m hm i]
    simp [List.append_assoc, carryRects]

theorem mk_disjoint_eq_spec (add rm : List Rect) :
    mk_disjoint add rm = specRowRects add rm := by
  unfold mk_disjoint specRowRects
  dsimp only
  cases hm : (xEdges (add ++ rm)).length - 1 with
  | zero =>
    have hcells : gridCells ((yEdges (add ++ rm)).length - 1) 0 = [] := by
      unfold gridCells
      simp
    rw [hcells]
    simp [runs, runsCore]
  | succ k =>
    have hconv : gridCells ((yEdges (add ++ rm)).length - 1) (k + 1)
        = (List.range' 0 ((yEdges (add ++ rm)).length - 1)).flatMap
            (fun i => (List.range' 0 (k + 1)).map (fun c => (i, c))) := by
      unfold gridCells
      simp only [List.range_eq_range']
    rw [hconv, foldl_flatMap]
    have hfin := scan_rows (xEdges (add ++ rm)) (yEdges (add ++ rm))
      (gridFlag add rm (xEdges (add ++ rm)) (yEdges (add ++ rm)))
      (k + 1) hm (Nat.succ_pos k)
      ((yEdges (add ++ rm)).length - 1) 0 0 [] none ⟨[], false, 0, 0⟩ ⟨rfl, rfl⟩
      (fun st hst => by cases hst)
    unfold finishScan at hfin
    rw [hfin, List.range_eq_range']
    simp [carryRects]

/-!
## Properties of the run decomposition
-/

/-- Entry invariant of the run automaton at position `j`: an open run
started strictly earlier, is all-true so far, and is left-maximal; with
no open run the previous cell (if any) is false. -/
def curOK (b : Nat → Bool) (j : Nat) : Option Nat → Prop
  | none => j = 0 ∨ b (j - 1) = false
  | some s0 => s0 < j ∧ (∀ t, s0 ≤ t → t < j → b t = true) ∧ (s0 = 0 ∨ b (s0 - 1) = false)

/-- Lower bound of the positions owned by the automaton state. -/
def loOf (j : Nat) : Option Nat → Nat
  | none => j
  | some s0 => s0

lemma runsCore_inv (b : Nat → Bool) :
    ∀ (n j : Nat) (cur : Option Nat) (closed : List (Nat × Nat)) (copen : Option Nat),
    curOK b j cur → runsCore b n j cur = (closed, copen) →
    (∀ se ∈ closed, se.1 < se.2 ∧ se.2 < j + n ∧ loOf j cur ≤ se.1 ∧
      (∀ t, se.1 ≤ t → t < se.2 → b t = true) ∧ b se.2 = false ∧
      (se.1 = 0 ∨ b (se.1 - 1) = false)) ∧
    (∀ s0, copen = some s0 → s0 < j + n ∧ loOf j cur ≤ s0 ∧
      (∀ t, s0 ≤ t → t < j + n → b t = true) ∧ (s0 = 0 ∨ b (s0 - 1) = false)) ∧
    (∀ t, loOf j cur ≤ t → t < j + n → b t = true →
      (∃ se ∈ closed, se.1 ≤ t ∧ t < se.2) ∨ (∃ s0, copen = some s0 ∧ s0 ≤ t)) ∧
    closed.Pairwise (fun p q => p.2 < q.1) ∧
    (∀ s0, copen = some s0 → ∀ se ∈ closed, se.2 < s0) := by
  intro n
  induction n with
  | zero =>
    intro j cur closed copen hok heq
    simp only [runsCore] at heq
    have h1 : closed = [] := ((Prod.mk.inj heq).1).symm
    have h2 : copen = cur := ((Prod.mk.inj heq).2).symm
    subst h1
    subst h2
    refine ⟨by simp, ?_, ?_, by simp, by simp⟩
    · intro s0 hs0
      subst hs0
      obtain ⟨hk1, hk2, hk3⟩ := hok
      exact ⟨by omega, le_refl _, fun t ht1 ht2 => hk2 t ht1 (by omega), hk3⟩
    · intro t hlo ht hbt
      cases copen with
      | none => simp [loOf] at hlo; omega
      | some s0 => exact Or.inr ⟨s0, rfl, hlo⟩
  | succ n ih =>
    intro j cur closed copen hok heq
    by_cases hb : b j = true
    · cases cur with
      | some s0 =>
        rw [show runsCore b (n + 1) j (some s0) = runsCore b n (j + 1) (some s0) by
          simp [runsCore, hb]] at heq
        obtain ⟨hk1, hk2, hk3⟩ := hok
        have hok2 : curOK b (j + 1) (some s0) :=
          ⟨by omega, fun t ht1 ht2 => by
            rcases Nat.lt_or_ge t j with h | h
            · exact hk2 t ht1 h
            · have : t = j := by omega
              subst this; exact hb, hk3⟩
        obtain ⟨c1, c2, c3, c4, c5⟩ := ih (j + 1) (some s0) closed copen hok2 heq
        refine ⟨?_, ?_, ?_, c4, c5⟩
        · intro se hse
          obtain ⟨d1, d2, d3, d4, d5, d6⟩ := c1 se hse
          exact ⟨d1, by omega, d3, d4, d5, d6⟩
        · intro s1 hs1
          obtain ⟨d1, d2, d3, d4⟩ := c2 s1 hs1
          exact ⟨by omega, d2, fun t ht1 ht2 => d3 t ht1 (by omega), d4⟩
        · intro t hlo ht hbt
          exact c3 t hlo (by omega) hbt
      | none =>
        rw [show runsCore b (n + 1) j none = runsCore b n (j + 1) (some j) by
          simp [runsCore, hb]] at heq
        have hok2 : curOK b (j + 1) (some j) :=
          ⟨by omega, fun t ht1 ht2 => by
            have : t = j := by omega
            subst this; exact hb, hok⟩
        obtain ⟨c1, c2, c3, c4, c5⟩ := ih (j + 1) (some j) closed copen hok2 heq
        refine ⟨?_, ?_, ?_, c4, c5⟩
        · intro se hse
          obtain ⟨d1, d2, d3, d4, d5, d6⟩ := c1 se hse
          simp only [loOf] at d3 ⊢
          exact ⟨d1, by omega, by omega, d4, d5, d6⟩
        · intro s1 hs1
          obtain ⟨d1, d2, d3, d4⟩ := c2 s1 hs1
          simp only [loOf] at d2 ⊢
          exact ⟨by omega, by omega, fun t ht1 ht2 => d3 t ht1 (by omega), d4⟩
        · intro t hlo ht hbt
          simp only [loOf] at hlo
          refine c3 t ?_ (by omega) hbt
          simp only [loOf]
          omega
    · have hbf : b j = false := by simpa using hb
      cases cur with
      | some s0 =>
        rcases hrec : runsCore b n (j + 1) none with ⟨cl2, co2⟩
        have hstep : runsCore b (n + 1) j (some s0) = ((s0, j) :: cl2, co2) := by
          simp [runsCore, hbf, hrec]
        rw [hstep] at heq
        have h1 : closed = (s0, j) :: cl2 := ((Prod.mk.inj heq).1).symm
        have h2 : copen = co2 := ((Prod.mk.inj heq).2).symm
        subst h1
        subst h2
        obtain ⟨hk1, hk2, hk3⟩ := hok
        have hok2 : curOK b (j + 1) none := Or.inr (by simpa using hbf)
        obtain ⟨c1, c2, c3, c4, c5⟩ := ih (j + 1) none cl2 copen hok2 hrec
        refine ⟨?_, ?_, ?_, ?_, ?_⟩
        · intro se hse
          rcases List.mem_cons.mp hse with hse | hse
          · subst hse
            exact ⟨hk1, by omega, le_refl _, fun t ht1 ht2 => hk2 t ht1 ht2, hbf, hk3⟩
          · obtain ⟨d1, d2, d3, d4, d5, d6⟩ := c1 se hse
            simp only [loOf] at d3 ⊢
            exact ⟨d1, by omega, by omega, d4, d5, d6⟩
        · intro s1 hs1
          obtain ⟨d1, d2, d3, d4⟩ := c2 s1 hs1
          simp only [loOf] at d2 ⊢
          exact ⟨by omega, by omega, fun t ht1 ht2 => d3 t ht1 (by omega), d4⟩
        · intro t hlo ht hbt
          simp only [loOf] at hlo
          rcases Nat.lt_or_ge t j with hc | hc
          · exact Or.inl ⟨(s0, j), List.mem_cons_self _ _, hlo, hc⟩
          · have htj : j < t := by
              rcases Nat.eq_or_lt_of_le hc with h | h
              · subst h; rw [hbt] at hbf; cases hbf
              · exact h
            rcases c3 t (by simp only [loOf]; omega) (by omega) hbt with ⟨se, hse, e1, e2⟩ | hco
            · exact Or.inl ⟨se, List.mem_cons_of_mem _ hse, e1, e2⟩
            · exact Or.inr hco
        · refine List.pairwise_cons.mpr ⟨?_, c4⟩
          intro se hse
          obtain ⟨d1, d2, d3, d4, d5, d6⟩ := c1 se hse
          simp only [loOf] at d3
          omega
        · intro s1 hs1 se hse
          rcases List.mem_cons.mp hse with hse | hse
          · subst hse
            obtain ⟨d1, d2, d3, d4⟩ := c2 s1 hs1
            simp only [loOf] at d2
            omega
          · exact c5 s1 hs1 se hse
      | none =>
        rw [show runsCore b (n + 1) j none = runsCore b n (j + 1) none by
          simp [runsCore, hbf]] at heq
        have hok2 : curOK b (j + 1) none := Or.inr (by simpa using hbf)
        obtain ⟨c1, c2, c3, c4, c5⟩ := ih (j + 1) none closed copen hok2 heq
        refine ⟨?_, ?_, ?_, c4, c5⟩
        · intro se hse
          obtain ⟨d1, d2, d3, d4, d5, d6⟩ := c1 se hse
          simp only [loOf] at d3 ⊢
          exact ⟨d1, by omega, by omega, d4, d5, d6⟩
        · intro s1 hs1
          obtain ⟨d1, d2, d3, d4⟩ := c2 s1 hs1
          simp only [loOf] at d2 ⊢
          exact ⟨by omega, by omega, fun t ht1 ht2 => d3 t ht1 (by omega), d4⟩
        · intro t hlo ht hbt
          simp only [loOf] at hlo
          have htj : j < t ∨ t = j := by omega
          rcases htj with hc | hc
          · exact c3 t (by simp only [loOf]; omega) (by omega) hbt
          · subst hc; rw [hbt] at hbf; cases hbf

lemma runs_props (b : Nat → Bool) (m : Nat) :
    (∀ se ∈ runs b m, se.1 < se.2 ∧ se.2 ≤ m ∧
      (∀ t, se.1 ≤ t → t < se.2 → b t = true) ∧
      (se.1 = 0 ∨ b (se.1 - 1) = false) ∧ (se.2 = m ∨ b se.2 = false)) ∧
    (∀ t, t < m → b t = true → ∃ se ∈ runs b m, se.1 ≤ t ∧ t < se.2) ∧
    (runs b m).Pairwise (fun p q => p.2 < q.1) := by
  rcases hrc : runsCore b m 0 none with ⟨closed, copen⟩
  obtain ⟨c1, c2, c3, c4, c5⟩ := runsCore_inv b m 0 none closed copen (Or.inl rfl) hrc
  unfold runs
  rw [hrc]
  cases copen with
  | none =>
    refine ⟨?_, ?_, c4⟩
    · intro se hse
      obtain ⟨d1, d2, d3, d4, d5, d6⟩ := c1 se hse
      exact ⟨d1, by omega, d4, d6, Or.inr d5⟩
    · intro t ht hbt
      rcases c3 t (by simp [loOf]) (by omega) hbt with h | ⟨s0, hs0, _⟩
      · exact h
      · cases hs0
  | some s0 =>
    obtain ⟨e1, e2, e3, e4⟩ := c2 s0 rfl
    refine ⟨?_, ?_, ?_⟩
    · intro se hse
      rcases List.mem_append.mp hse with hse | hse
      · obtain ⟨d1, d2, d3, d4, d5, d6⟩ := c1 se hse
        exact ⟨d1, by omega, d4, d6, Or.inr d5⟩
      · have hse2 : se = (s0, m) := by simpa using hse
        subst hse2
        exact ⟨by omega, le_refl m, fun t ht1 ht2 => e3 t ht1 (by omega), e4, Or.inl rfl⟩
    · intro t ht hbt
      rcases c3 t (by simp [loOf]) (by omega) hbt with ⟨se, hse, f1, f2⟩ | ⟨s1, hs1, hle⟩
      · exact ⟨se, List.mem_append_left _ hse, f1, f2⟩
      · have hs : s1 = s0 := (Option.some.inj hs1).symm
        subst hs
        exact ⟨(s1, m), List.mem_append_right _ (by simp), hle, by omega⟩
    · refine List.pairwise_append.mpr ⟨c4, List.pairwise_singleton _ _, ?_⟩
      intro a ha bb hbb
      have hbb2 : bb = (s0, m) := by simpa using hbb
      subst hbb2
      exact c5 s0 rfl a ha

/-- Coverage predicate of a run list: some run contains column `t`. -/
def covFn (l : List (Nat × Nat)) (t : Nat) : Prop :=
  ∃ se ∈ l, se.1 ≤ t ∧ t < se.2

lemma covFn_head_le (l : List (Nat × Nat)) (p : Nat × Nat)
    (hv : ∀ se ∈ p :: l, se.1 < se.2)
    (hp : (p :: l).Pairwise (fun a c => a.2 < c.1)) :
    ∀ t, covFn (p :: l) t → p.1 ≤ t := by
  rintro t ⟨se, hse, h1, h2⟩
  rcases List.mem_cons.mp hse with rfl | hse
  · exact h1
  · have hlt := (List.pairwise_cons.mp hp).1 se hse
    have hvp := hv p (List.mem_cons_self _ _)
    omega

lemma runs_unique :
    ∀ (l1 l2 : List (Nat × Nat)),
    (∀ se ∈ l1, se.1 < se.2) → l1.Pairwise (fun p q => p.2 < q.1) →
    (∀ se ∈ l2, se.1 < se.2) → l2.Pairwise (fun p q => p.2 < q.1) →
    (∀ t, covFn l1 t ↔ covFn l2 t) → l1 = l2 := by
  intro l1
  induction l1 with
  | nil =>
    intro l2 _ _ hv2 _ hcov
    cases l2 with
    | nil => rfl
    | cons p t2 =>
      exfalso
      have hc : covFn (p :: t2) p.1 :=
        ⟨p, List.mem_cons_self _ _, le_refl _, hv2 p (List.mem_cons_self _ _)⟩
      rcases (hcov p.1).mpr hc with ⟨se, hse, _, _⟩
      exact absurd hse (List.not_mem_nil se)
  | cons p t1 ih =>
    intro l2 hv1 hp1 hv2 hp2 hcov
    cases l2 with
    | nil =>
      exfalso
      have hc : covFn (p :: t1) p.1 :=
        ⟨p, List.mem_cons_self _ _, le_refl _, hv1 p (List.mem_cons_self _ _)⟩
      rcases (hcov p.1).mp hc with ⟨se, hse, _, _⟩
      exact absurd hse (List.not_mem_nil se)
    | cons q t2 =>
      obtain ⟨s1, e1⟩ := p
      obtain ⟨s2, e2⟩ := q
      have hs : s1 = s2 := by
        have hc1 : covFn ((s1, e1) :: t1) s1 :=
          ⟨(s1, e1), List.mem_cons_self _ _, le_refl _, hv1 _ (List.mem_cons_self _ _)⟩
        have hc2 : covFn ((s2, e2) :: t2) s2 :=
          ⟨(s2, e2), List.mem_cons_self _ _, le_refl _, hv2 _ (List.mem_cons_self _ _)⟩
        have h1 := covFn_head_le t2 (s2, e2) hv2 hp2 s1 ((hcov s1).mp hc1)
        have h2 := covFn_head_le t1 (s1, e1) hv1 hp1 s2 ((hcov s2).mpr hc2)
        omega
      subst hs
      have hnc1 : ¬ covFn ((s1, e1) :: t1) e1 := by
        rintro ⟨se, hse, h1, h2⟩
        rcases List.mem_cons.mp hse with rfl | hse
        · omega
        · have hlt := (List.pairwise_cons.mp hp1).1 se hse
          omega
      have hnc2 : ¬ covFn ((s1, e2) :: t2) e2 := by
        rintro ⟨se, hse, h1, h2⟩
        rcases List.mem_cons.mp hse with rfl | hse
        · omega
        · have hlt := (List.pairwise_cons.mp hp2).1 se hse
          omega
      have he : e1 = e2 := by
        have hv1h := hv1 (s1, e1) (List.mem_cons_self _ _)
        have hv2h := hv2 (s1, e2) (List.mem_cons_self _ _)
        rcases Nat.lt_trichotomy e1 e2 with h | h | h
        · exfalso
          exact hnc1 ((hcov e1).mpr ⟨(s1, e2), List.mem_cons_self _ _, by omega, h⟩)
        · exact h
        · exfalso
          exact hnc2 ((hcov e2).mp ⟨(s1, e1), List.mem_cons_self _ _, by omega, h⟩)
      subst he
      have hcovt : ∀ t, covFn t1 t ↔ covFn t2 t := by
        intro t
        constructor
        · rintro ⟨se, hse, h1, h2⟩
          have he1lt := (List.pairwise_cons.mp hp1).1 se hse
          rcases (hcov t).mp ⟨se, List.mem_cons_of_mem _ hse, h1, h2⟩ with ⟨se2, hse2, g1, g2⟩
          rcases List.mem_cons.mp hse2 with rfl | hse2
          · exfalso
            simp only at g2
            omega
          · exact ⟨se2, hse2, g1, g2⟩
        · rintro ⟨se, hse, h1, h2⟩
          have he1lt := (List.pairwise_cons.mp hp2).1 se hse
          rcases (hcov t).mpr ⟨se, List.mem_cons_of_mem _ hse, h1, h2⟩ with ⟨se2, hse2, g1, g2⟩
          rcases List.mem_cons.mp hse2 with rfl | hse2
          · exfalso
            simp only at g2
            omega
          · exact ⟨se2, hse2, g1, g2⟩
      have htails := ih t2
        (fun se hse => hv1 se (List.mem_cons_of_mem _ hse))
        (List.pairwise_cons.mp hp1).2
        (fun se hse => hv2 se (List.mem_cons_of_mem _ hse))
        (List.pairwise_cons.mp hp2).2
        hcovt
      rw [htails]

/-!
## Sorted edge lists and grid-cell geometry
-/

lemma set_add_mem (arr : List Int) (x v : Int) :
    v ∈ set_add arr x ↔ v ∈ arr ∨ v = x := by
  unfold set_add
  by_cases h : x ∈ arr
  · simp only [h, if_true]
    constructor
    · exact Or.inl
    · rintro (hv | rfl)
      · exact hv
      · exact h
  · simp [h]

lemma set_add_nodup (arr : List Int) (x : Int) (h : arr.Nodup) :
    (set_add arr x).Nodup := by
  unfold set_add
  by_cases hx : x ∈ arr
  · simpa [hx] using h
  · simp only [hx, if_false]
    rw [List.nodup_append]
    exact ⟨h, List.nodup_singleton x, by simpa [List.disjoint_singleton] using hx⟩

lemma edgeFold_go_mem (f g : Rect → Int) :
    ∀ (rects : List Rect) (acc : List Int) (v : Int),
    (v ∈ rects.foldl (fun acc r => set_add (set_add acc (f r)) (g r)) acc ↔
      v ∈ acc ∨ ∃ r ∈ rects, v = f r ∨ v = g r) := by
  intro rects
  induction rects with
  | nil => simp
  | cons r t ih =>
    intro acc v
    simp only [List.foldl_cons]
    rw [ih, set_add_mem, set_add_mem]
    constructor
    · rintro (((h | h) | h) | ⟨r2, hr2, hv⟩)
      · exact Or.inl h
      · exact Or.inr ⟨r, List.mem_cons_self _ _, Or.inl h⟩
      · exact Or.inr ⟨r, List.mem_cons_self _ _, Or.inr h⟩
      · exact Or.inr ⟨r2, List.mem_cons_of_mem _ hr2, hv⟩
    · rintro (h | ⟨r2, hr2, hv⟩)
      · exact Or.inl (Or.inl (Or.inl h))
      · rcases List.mem_cons.mp hr2 with rfl | hr2
        · rcases hv with h | h
          · exact Or.inl (Or.inl (Or.inr h))
          · exact Or.inl (Or.inr h)
        · exact Or.inr ⟨r2, hr2, hv⟩

lemma edgeFold_mem (f g : Rect → Int) (rects : List Rect) (v : Int) :
    v ∈ edgeFold f g rects ↔ ∃ r ∈ rects, v = f r ∨ v = g r := by
  unfold edgeFold
  simpa using edgeFold_go_mem f g rects [] v

lemma edgeFold_nodup (f g : Rect → Int) (rects : List Rect) :
    (edgeFold f g rects).Nodup := by
  unfold edgeFold
  suffices h : ∀ (rs : List Rect) (acc : List Int), acc.Nodup →
      (rs.foldl (fun acc r => set_add (set_add acc (f r)) (g r)) acc).Nodup by
    exact h rects [] List.nodup_nil
  intro rs
  induction rs with
  | nil => intro acc hacc; simpa using hacc
  | cons r t ih =>
    intro acc hacc
    simp only [List.foldl_cons]
    exact ih _ (set_add_nodup _ _ (set_add_nodup _ _ hacc))

lemma sorted_lt_of_le_nodup (l : List Int) (h1 : l.Sorted (· ≤ ·)) (h2 : l.Nodup) :
    l.Sorted (· < ·) :=
  (List.Pairwise.and h1 h2).imp (fun hab => lt_of_le_of_ne hab.1 hab.2)

lemma xEdges_sorted (rects : List Rect) : (xEdges rects).Sorted (· < ·) := by
  apply sorted_lt_of_le_nodup
  · exact List.sorted_insertionSort _ _
  · exact ((List.perm_insertionSort _ _).nodup_iff).mpr (edgeFold_nodup _ _ _)

lemma yEdges_sorted (rects : List Rect) : (yEdges rects).Sorted (· < ·) := by
  apply sorted_lt_of_le_nodup
  · exact List.sorted_insertionSort _ _
  · exact ((List.perm_insertionSort _ _).nodup_iff).mpr (edgeFold_nodup _ _ _)

lemma mem_xEdges (rects : List Rect) (v : Int) :
    v ∈ xEdges rects ↔ ∃ r ∈ rects, v = r.x ∨ v = r.x + r.w := by
  unfold xEdges xEdgesRaw
  rw [List.mem_insertionSort]
  exact edgeFold_mem _ _ rects v

lemma mem_yEdges (rects : List Rect) (v : Int) :
    v ∈ yEdges rects ↔ ∃ r ∈ rects, v = r.y ∨ v = r.y + r.h := by
  unfold yEdges yEdgesRaw
  rw [List.mem_insertionSort]
  exact edgeFold_mem _ _ rects v

lemma nth_lt_nth (l : List Int) (h : l.Sorted (· < ·)) (i j : Nat)
    (hij : i < j) (hj : j < l.length) : nth l i < nth l j := by
  have hi : i < l.length := lt_trans hij hj
  rw [nth, nth, List.getD_eq_getElem l 0 hi, List.getD_eq_getElem l 0 hj]
  exact List.pairwise_iff_getElem.mp h i j hi hj hij

lemma nth_le_nth (l : List Int) (h : l.Sorted (· < ·)) (i j : Nat)
    (hij : i ≤ j) (hj : j < l.length) : nth l i ≤ nth l j := by
  rcases Nat.eq_or_lt_of_le hij with rfl | hlt
  · exact le_refl _
  · exact le_of_lt (nth_lt_nth l h i j hlt hj)

lemma eidx_lt_length (l : List Int) (v : Int) (hv : v ∈ l) : eidx l v < l.length :=
  List.indexOf_lt_length.mpr hv

lemma nth_eidx (l : List Int) (v : Int) (hv : v ∈ l) : nth l (eidx l v) = v := by
  rw [nth, List.getD_eq_getElem l 0 (eidx_lt_length l v hv)]
  exact List.getElem_indexOf _

lemma eidx_le_iff (l : List Int) (h : l.Sorted (· < ·)) (v : Int) (hv : v ∈ l)
    (j : Nat) (hj : j < l.length) : eidx l v ≤ j ↔ v ≤ nth l j := by
  constructor
  · intro hle
    have := nth_le_nth l h (eidx l v) j hle hj
    rwa [nth_eidx l v hv] at this
  · intro hvle
    by_contra hc
    have hlt : j < eidx l v := by omega
    have := nth_lt_nth l h j (eidx l v) hlt (eidx_lt_length l v hv)
    rw [nth_eidx l v hv] at this
    omega

lemma lt_eidx_iff (l : List Int) (h : l.Sorted (· < ·)) (v : Int) (hv : v ∈ l)
    (j : Nat) (hj : j < l.length) : j < eidx l v ↔ nth l j < v := by
  rw [← Nat.not_le, ← not_le]
  exact not_congr (by rw [eidx_le_iff l h v hv j hj])

lemma lt_eidx_iff_succ (l : List Int) (h : l.Sorted (· < ·)) (v : Int) (hv : v ∈ l)
    (i : Nat) (hi : i + 1 < l.length) : i < eidx l v ↔ nth l (i + 1) ≤ v := by
  rw [lt_eidx_iff l h v hv i (by omega)]
  constructor
  · intro hlt
    have hgt : i + 1 ≤ eidx l v := by
      rw [Nat.succ_le_iff, lt_eidx_iff l h v hv i (by omega)]
      exact hlt
    have := nth_le_nth l h (i + 1) (eidx l v) hgt (eidx_lt_length l v hv)
    rwa [nth_eidx l v hv] at this
  · intro hle
    have := nth_lt_nth l h i (i + 1) (Nat.lt_succ_self i) hi
    omega

/-- Greatest index `k ≤ n` satisfying `Q`, or `0` when none does. -/
def lastBelow (Q : Nat → Bool) : Nat → Nat
  | 0 => 0
  | k + 1 => if Q (k + 1) then k + 1 else lastBelow Q k

lemma lastBelow_spec (Q : Nat → Bool) :
    ∀ n, lastBelow Q n ≤ n ∧
      (∀ s, s ≤ n → Q s = true → Q (lastBelow Q n) = true ∧ s ≤ lastBelow Q n) ∧
      (∀ k, lastBelow Q n < k → k ≤ n → Q k = false) := by
  intro n
  induction n with
  | zero =>
    refine ⟨le_refl _, ?_, ?_⟩
    · intro s hs hq
      have : s = 0 := by omega
      subst this
      exact ⟨hq, le_refl _⟩
    · intro k h1 h2
      omega
  | succ n ih =>
    obtain ⟨i1, i2, i3⟩ := ih
    by_cases hq : Q (n + 1) = true
    · rw [show lastBelow Q (n + 1) = n + 1 by simp [lastBelow, hq]]
      refine ⟨le_refl _, ?_, ?_⟩
      · intro s hs hqs
        exact ⟨hq, hs⟩
      · intro k h1 h2
        omega
    · have hqf : Q (n + 1) = false := by simpa using hq
      rw [show lastBelow Q (n + 1) = lastBelow Q n by simp [lastBelow, hqf]]
      refine ⟨by omega, ?_, ?_⟩
      · intro s hs hqs
        rcases Nat.eq_or_lt_of_le hs with rfl | hlt
        · rw [hqs] at hqf
          cases hqf
        · exact i2 s (by omega) hqs
      · intro k h1 h2
        rcases Nat.eq_or_lt_of_le h2 with rfl | hlt
        · exact hqf
        · exact i3 k h1 (by omega)

lemma bracket_between (l : List Int) (h : l.Sorted (· < ·)) (s e : Nat) (v : Int)
    (he : e < l.length) (hse : s < e) (hv1 : nth l s ≤ v) (hv2 : v < nth l e) :
    ∃ j, s ≤ j ∧ j < e ∧ nth l j ≤ v ∧ v < nth l (j + 1) := by
  obtain ⟨b1, b2, b3⟩ := lastBelow_spec (fun j => decide (nth l j ≤ v)) (e - 1)
  obtain ⟨hq0, hs0⟩ := b2 s (by omega) (by simpa using hv1)
  refine ⟨lastBelow (fun j => decide (nth l j ≤ v)) (e - 1), hs0, by omega, by simpa using hq0, ?_⟩
  by_cases hc : lastBelow (fun j => decide (nth l j ≤ v)) (e - 1) + 1 = e
  · rw [hc]
    exact hv2
  · have h2 := b3 (lastBelow (fun j => decide (nth l j ≤ v)) (e - 1) + 1)
      (Nat.lt_succ_self _) (by omega)
    simp only [decide_eq_false_iff_not, not_le] at h2
    exact h2

lemma bracket_mem (l : List Int) (h : l.Sorted (· < ·)) (a b v : Int)
    (ha : a ∈ l) (hb : b ∈ l) (h1 : a ≤ v) (h2 : v < b) :
    ∃ j, j + 1 < l.length ∧ eidx l a ≤ j ∧ j < eidx l b ∧
      nth l j ≤ v ∧ v < nth l (j + 1) := by
  have hab : eidx l a < eidx l b := by
    rw [lt_eidx_iff l h b hb (eidx l a) (eidx_lt_length l a ha), nth_eidx l a ha]
    omega
  obtain ⟨j, hj1, hj2, hj3, hj4⟩ := bracket_between l h (eidx l a) (eidx l b) v
    (eidx_lt_length l b hb) hab (by rw [nth_eidx l a ha]; exact h1)
    (by rw [nth_eidx l b hb]; exact h2)
  exact ⟨j, by have := eidx_lt_length l b hb; omega, hj1, hj2, hj3, hj4⟩

lemma no_mem_between (l : List Int) (h : l.Sorted (· < ·)) (u : Int) (hu : u ∈ l)
    (j : Nat) (hj1 : j + 1 < l.length) : ¬(nth l j < u ∧ u < nth l (j + 1)) := by
  rintro ⟨h1, h2⟩
  by_cases hc : eidx l u ≤ j
  · have := (eidx_le_iff l h u hu j (by omega)).mp hc
    omega
  · have hge : j + 1 ≤ eidx l u := by omega
    have := nth_le_nth l h (j + 1) (eidx l u) hge (eidx_lt_length l u hu)
    rw [nth_eidx l u hu] at this
    omega

lemma markCond_iff (xs ys : List Int) (hxs : xs.Sorted (· < ·)) (hys : ys.Sorted (· < ·))
    (r : Rect) (hx1 : r.x ∈ xs) (hx2 : r.x + r.w ∈ xs)
    (hy1 : r.y ∈ ys) (hy2 : r.y + r.h ∈ ys)
    (i j : Nat) (hi : i + 1 < ys.length) (hj : j + 1 < xs.length) :
    markCond xs ys r i j = true ↔
      (0 < r.w ∧ 0 < r.h ∧ r.y ≤ nth ys i ∧ nth ys (i + 1) ≤ r.y + r.h ∧
       r.x ≤ nth xs j ∧ nth xs (j + 1) ≤ r.x + r.w) := by
  unfold markCond
  simp only [Bool.and_eq_true, decide_eq_true_eq]
  rw [eidx_le_iff ys hys r.y hy1 i (by omega),
    lt_eidx_iff_succ ys hys (r.y + r.h) hy2 i hi,
    eidx_le_iff xs hxs r.x hx1 j (by omega),
    lt_eidx_iff_succ xs hxs (r.x + r.w) hx2 j hj]
  constructor
  · rintro ⟨⟨⟨⟨⟨h1, h2⟩, h3⟩, h4⟩, h5⟩, h6⟩
    exact ⟨h1, h2, h3, h4, h5, h6⟩
  · rintro ⟨h1, h2, h3, h4, h5, h6⟩
    exact ⟨⟨⟨⟨⟨h1, h2⟩, h3⟩, h4⟩, h5⟩, h6⟩

lemma memb_iff_markCond (xs ys : List Int) (hxs : xs.Sorted (· < ·))
    (hys : ys.Sorted (· < ·)) (r : Rect)
    (hx1 : r.x ∈ xs) (hx2 : r.x + r.w ∈ xs) (hy1 : r.y ∈ ys) (hy2 : r.y + r.h ∈ ys)
    (i j : Nat) (hi : i + 1 < ys.length) (hj : j + 1 < xs.length)
    (px py : Int) (hpx1 : nth xs j ≤ px) (hpx2 : px < nth xs (j + 1))
    (hpy1 : nth ys i ≤ py) (hpy2 : py < nth ys (i + 1)) :
    (r.memb px py = true) ↔ (markCond xs ys r i j = true) := by
  rw [markCond_iff xs ys hxs hys r hx1 hx2 hy1 hy2 i j hi hj]
  unfold Rect.memb
  simp only [Bool.and_eq_true, decide_eq_true_eq]
  constructor
  · rintro ⟨⟨⟨m1, m2⟩, m3⟩, m4⟩
    have hxleft : r.x ≤ nth xs j := by
      by_contra hc
      exact no_mem_between xs hxs r.x hx1 j hj ⟨by omega, by omega⟩
    have hxright : nth xs (j + 1) ≤ r.x + r.w := by
      by_contra hc
      exact no_mem_between xs hxs (r.x + r.w) hx2 j hj ⟨by omega, by omega⟩
    have hytop : r.y ≤ nth ys i := by
      by_contra hc
      exact no_mem_between ys hys r.y hy1 i hi ⟨by omega, by omega⟩
    have hybot : nth ys (i + 1) ≤ r.y + r.h := by
      by_contra hc
      exact no_mem_between ys hys (r.y + r.h) hy2 i hi ⟨by omega, by omega⟩
    exact ⟨by omega, by omega, hytop, hybot, hxleft, hxright⟩
  · rintro ⟨h1, h2, h3, h4, h5, h6⟩
    exact ⟨⟨⟨by omega, by omega⟩, by omega⟩, by omega⟩

lemma addOnly_gridFlag_iff (add rm : List Rect) (xs ys : List Int) (i j : Nat) :
    addOnly (gridFlag add rm xs ys) i j = true ↔
      ((∃ a ∈ add, markCond xs ys a i j = true) ∧
        ¬(∃ c ∈ rm, markCond xs ys c i j = true)) := by
  unfold addOnly gridFlag
  by_cases h1 : add.any (fun r => markCond xs ys r i j) = true
  · by_cases h2 : rm.any (fun r => markCond xs ys r i j) = true
    · simp only [h1, h2, if_true]
      rw [List.any_eq_true] at h1 h2
      simp only [beq_iff_eq]
      constructor
      · intro h
        omega
      · rintro ⟨_, hno⟩
        exact absurd h2 hno
    · have h2f : rm.any (fun r => markCond xs ys r i j) = false := by simpa using h2
      simp only [h1, h2f, if_true, Bool.false_eq_true, if_false]
      rw [List.any_eq_true] at h1
      rw [List.any_eq_true] at h2
      simp only [beq_iff_eq]
      constructor
      · intro _
        exact ⟨h1, h2⟩
      · intro _
        trivial
  · have h1f : add.any (fun r => markCond xs ys r i j) = false := by simpa using h1
    rw [List.any_eq_true] at h1
    simp only [h1f, Bool.false_eq_true, if_false]
    by_cases h2 : rm.any (fun r => markCond xs ys r i j) = true
    · simp only [h2, if_true, beq_iff_eq]
      constructor
      · intro h
        omega
      · rintro ⟨ha, _⟩
        exact absurd ha h1
    · have h2f : rm.any (fun r => markCond xs ys r i j) = false := by simpa using h2
      simp only [h2f, Bool.false_eq_true, if_false, beq_iff_eq]
      constructor
      · intro h
        omega
      · rintro ⟨ha, _⟩
        exact absurd ha h1

lemma memb_iff (r : Rect) (px py : Int) :
    r.memb px py = true ↔
      (r.x ≤ px ∧ px < r.x + r.w ∧ r.y ≤ py ∧ py < r.y + r.h) := by
  unfold Rect.memb
  simp [and_assoc]

lemma edges_present (rects : List Rect) (r : Rect) (hr : r ∈ rects) :
    r.x ∈ xEdges rects ∧ r.x + r.w ∈ xEdges rects ∧
    r.y ∈ yEdges rects ∧ r.y + r.h ∈ yEdges rects := by
  refine ⟨?_, ?_, ?_, ?_⟩
  · exact (mem_xEdges rects _).mpr ⟨r, hr, Or.inl rfl⟩
  · exact (mem_xEdges rects _).mpr ⟨r, hr, Or.inr rfl⟩
  · exact (mem_yEdges rects _).mpr ⟨r, hr, Or.inl rfl⟩
  · exact (mem_yEdges rects _).mpr ⟨r, hr, Or.inr rfl⟩

/-- Master coverage theorem for `mk_disjoint`: an integer point is
covered by the output exactly when it is covered by a non-degenerate
`add` rectangle and by no non-degenerate `rm` rectangle.  (A degenerate
rectangle covers no point at all, so non-degeneracy is implicit in
`memb`.) -/
theorem mk_disjoint_cover (add rm : List Rect) (px py : Int) :
    (∃ r ∈ mk_disjoint add rm, r.memb px py = true) ↔
      ((∃ a ∈ add, a.memb px py = true) ∧ ¬(∃ c ∈ rm, c.memb px py = true)) := by
  rw [mk_disjoint_eq_spec]
  unfold specRowRects
  dsimp only
  have hxs := xEdges_sorted (add ++ rm)
  have hys := yEdges_sorted (add ++ rm)
  constructor
  · rintro ⟨r, hr, hmemb⟩
    rw [List.mem_flatMap] at hr
    obtain ⟨i, hi, hrmap⟩ := hr
    rw [List.mem_map] at hrmap
    obtain ⟨se, hse, rfl⟩ := hrmap
    rw [List.mem_range] at hi
    obtain ⟨p1, p2, _⟩ := runs_props
      (addOnly (gridFlag add rm (xEdges (add ++ rm)) (yEdges (add ++ rm))) i)
      ((xEdges (add ++ rm)).length - 1)
    obtain ⟨q1, q2, q3, _, _⟩ := p1 se hse
    have hilen : i + 1 < (yEdges (add ++ rm)).length := by omega
    have hselen : se.2 < (xEdges (add ++ rm)).length := by omega
    rw [memb_iff] at hmemb
    unfold runRect at hmemb
    dsimp only at hmemb
    obtain ⟨m1, m2, m3, m4⟩ := hmemb
    have hpx2 : px < nth (xEdges (add ++ rm)) se.2 := by omega
    have hpy2 : py < nth (yEdges (add ++ rm)) (i + 1) := by omega
    obtain ⟨j, hj1, hj2, hj3, hj4⟩ := bracket_between (xEdges (add ++ rm)) hxs
      se.1 se.2 px hselen q1 m1 hpx2
    have hjlen : j + 1 < (xEdges (add ++ rm)).length := by omega
    have hbj := q3 j hj1 hj2
    rw [addOnly_gridFlag_iff] at hbj
    obtain ⟨⟨a, ha, hamk⟩, hno⟩ := hbj
    obtain ⟨e1, e2, e3, e4⟩ := edges_present (add ++ rm) a (List.mem_append_left rm ha)
    refine ⟨⟨a, ha, ?_⟩, ?_⟩
    · rw [memb_iff_markCond (xEdges (add ++ rm)) (yEdges (add ++ rm)) hxs hys a
        e1 e2 e3 e4 i j hilen hjlen px py hj3 hj4 m3 hpy2]
      exact hamk
    · rintro ⟨c, hc, hcmemb⟩
      apply hno
      obtain ⟨f1, f2, f3, f4⟩ := edges_present (add ++ rm) c (List.mem_append_right add hc)
      refine ⟨c, hc, ?_⟩
      rw [← memb_iff_markCond (xEdges (add ++ rm)) (yEdges (add ++ rm)) hxs hys c
        f1 f2 f3 f4 i j hilen hjlen px py hj3 hj4 m3 hpy2]
      exact hcmemb
  · rintro ⟨⟨a, ha, hamemb⟩, hno⟩
    obtain ⟨e1, e2, e3, e4⟩ := edges_present (add ++ rm) a (List.mem_append_left rm ha)
    have hb := (memb_iff a px py).mp hamemb
    obtain ⟨j, hjlen, _, _, hj3, hj4⟩ := bracket_mem (xEdges (add ++ rm)) hxs
      a.x (a.x + a.w) px e1 e2 hb.1 hb.2.1
    obtain ⟨i, hilen, _, _, hi3, hi4⟩ := bracket_mem (yEdges (add ++ rm)) hys
      a.y (a.y + a.h) py e3 e4 hb.2.2.1 hb.2.2.2
    have haddonly : addOnly (gridFlag add rm (xEdges (add ++ rm)) (yEdges (add ++ rm))) i j
        = true := by
      rw [addOnly_gridFlag_iff]
      refine ⟨⟨a, ha, ?_⟩, ?_⟩
      · rw [← memb_iff_markCond (xEdges (add ++ rm)) (yEdges (add ++ rm)) hxs hys a
          e1 e2 e3 e4 i j hilen hjlen px py hj3 hj4 hi3 hi4]
        exact hamemb
      · rintro ⟨c, hc, hcmk⟩
        obtain ⟨f1, f2, f3, f4⟩ := edges_present (add ++ rm) c (List.mem_append_right add hc)
        apply hno
        refine ⟨c, hc, ?_⟩
        rw [memb_iff_markCond (xEdges (add ++ rm)) (yEdges (add ++ rm)) hxs hys c
          f1 f2 f3 f4 i j hilen hjlen px py hj3 hj4 hi3 hi4]
        exact hcmk
    obtain ⟨p1, p2, _⟩ := runs_props
      (addOnly (gridFlag add rm (xEdges (add ++ rm)) (yEdges (add ++ rm))) i)
      ((xEdges (add ++ rm)).length - 1)
    obtain ⟨se, hse, hc1, hc2⟩ := p2 j (by omega) haddonly
    obtain ⟨q1, q2, _, _, _⟩ := p1 se hse
    refine ⟨runRect (xEdges (add ++ rm)) (yEdges (add ++ rm)) i se, ?_, ?_⟩
    · rw [List.mem_flatMap]
      exact ⟨i, List.mem_range.mpr (by omega), List.mem_map.mpr ⟨se, hse, rfl⟩⟩
    · rw [memb_iff]
      unfold runRect
      dsimp only
      have hg1 : nth (xEdges (add ++ rm)) se.1 ≤ nth (xEdges (add ++ rm)) j :=
        nth_le_nth _ hxs se.1 j hc1 (by omega)
      have hg2 : nth (xEdges (add ++ rm)) (j + 1) ≤ nth (xEdges (add ++ rm)) se.2 :=
        nth_le_nth _ hxs (j + 1) se.2 hc2 (by omega)
      refine ⟨by omega, by omega, by omega, by omega⟩

lemma Rect.memb_nonDeg (r : Rect) (px py : Int) (h : r.memb px py = true) :
    r.nonDeg = true := by
  rw [memb_iff] at h
  unfold Rect.nonDeg
  simp only [Bool.and_eq_true, decide_eq_true_eq]
  omega

lemma mk_disjoint_nonDeg (add rm : List Rect) :
    ∀ r ∈ mk_disjoint add rm, r.nonDeg = true := by
  rw [mk_disjoint_eq_spec]
  unfold specRowRects
  dsimp only
  intro r hr
  rw [List.mem_flatMap] at hr
  obtain ⟨i, hi, hm⟩ := hr
  rw [List.mem_map] at hm
  obtain ⟨se, hse, rfl⟩ := hm
  rw [List.mem_range] at hi
  obtain ⟨p1, _, _⟩ := runs_props
    (addOnly (gridFlag add rm (xEdges (add ++ rm)) (yEdges (add ++ rm))) i)
    ((xEdges (add ++ rm)).length - 1)
  obtain ⟨q1, q2, _, _, _⟩ := p1 se hse
  have hx := nth_lt_nth (xEdges (add ++ rm)) (xEdges_sorted _) se.1 se.2 q1 (by omega)
  have hy := nth_lt_nth (yEdges (add ++ rm)) (yEdges_sorted _) i (i + 1)
    (Nat.lt_succ_self i) (by omega)
  unfold runRect Rect.nonDeg
  simp only [Bool.and_eq_true, decide_eq_true_eq]
  omega

/-- Output order/shape invariant: rectangles of a later row start below
the earlier row's bottom edge, and within one row later rectangles start
strictly right of the earlier one's right edge. -/
def rectBefore (a b : Rect) : Prop :=
  (a.y = b.y ∧ a.h = b.h ∧ a.x + a.w < b.x) ∨ a.y + a.h ≤ b.y

lemma pairwise_flatMap_of {α β : Type} (f : β → List α) (P : α → α → Prop) :
    ∀ (l : List β), (∀ i ∈ l, (f i).Pairwise P) →
    l.Pairwise (fun i j => ∀ a ∈ f i, ∀ b ∈ f j, P a b) →
    (l.flatMap f).Pairwise P := by
  intro l
  induction l with
  | nil => simp
  | cons x t ih =>
    intro h1 h2
    rw [List.flatMap_cons, List.pairwise_append]
    obtain ⟨hx, ht⟩ := List.pairwise_cons.mp h2
    refine ⟨h1 x (List.mem_cons_self _ _), ih (fun i hi => h1 i (List.mem_cons_of_mem _ hi)) ht, ?_⟩
    intro a ha b hb
    rw [List.mem_flatMap] at hb
    obtain ⟨j, hj, hbj⟩ := hb
    exact hx j hj a ha b hbj

lemma mk_disjoint_rowform (add rm : List Rect) :
    (mk_disjoint add rm).Pairwise rectBefore := by
  rw [mk_disjoint_eq_spec]
  unfold specRowRects
  dsimp only
  apply pairwise_flatMap_of
  · intro i hi
    rw [List.pairwise_map]
    obtain ⟨p1, _, p3⟩ := runs_props
      (addOnly (gridFlag add rm (xEdges (add ++ rm)) (yEdges (add ++ rm))) i)
      ((xEdges (add ++ rm)).length - 1)
    refine p3.imp_of_mem ?_
    intro p q hp hq hpq
    obtain ⟨a1, a2, _, _, _⟩ := p1 p hp
    obtain ⟨b1, b2, _, _, _⟩ := p1 q hq
    left
    refine ⟨rfl, rfl, ?_⟩
    have := nth_lt_nth (xEdges (add ++ rm)) (xEdges_sorted _) p.2 q.1 hpq (by omega)
    unfold runRect
    dsimp only
    omega
  · have hrange := List.pairwise_lt_range ((yEdges (add ++ rm)).length - 1)
    refine hrange.imp_of_mem ?_
    intro i1 i2 h1 h2 hlt a ha b hb
    rw [List.mem_range] at h1 h2
    rw [List.mem_map] at ha hb
    obtain ⟨p, hp, rfl⟩ := ha
    obtain ⟨q, hq, rfl⟩ := hb
    right
    have := nth_le_nth (yEdges (add ++ rm)) (yEdges_sorted _) (i1 + 1) i2
      (by omega) (by omega)
    unfold runRect
    dsimp only
    omega

lemma mk_disjoint_nil_of_subset (add rm : List Rect)
    (h : ∀ px py : Int, (∃ a ∈ add, a.memb px py = true) →
      (∃ c ∈ rm, c.memb px py = true)) :
    mk_disjoint add rm = [] := by
  rcases hout : mk_disjoint add rm with _ | ⟨r, t⟩
  · rfl
  · exfalso
    have hr : r ∈ mk_disjoint add rm := by
      rw [hout]
      exact List.mem_cons_self _ _
    have hnd := mk_disjoint_nonDeg add rm r hr
    have hmem : r.memb r.x r.y = true := by
      rw [memb_iff]
      unfold Rect.nonDeg at hnd
      simp only [Bool.and_eq_true, decide_eq_true_eq] at hnd
      omega
    have hc := (mk_disjoint_cover add rm r.x r.y).mp ⟨r, hr, hmem⟩
    exact hc.2 (h r.x r.y hc.1)

/-- C1: for every rectangle list `A`, `disjoint_difference(A, [])`
(`mk_disjoint` with an empty removed list) returns rectangles that are
individually non-degenerate and pairwise disjoint, and whose union is
exactly the union of the non-degenerate members of `A`. -/
theorem C1_disjoint_difference_spec (A : List Rect) :
    (∀ r ∈ mk_disjoint A [], r.nonDeg = true) ∧
    (mk_disjoint A []).Pairwise
      (fun r1 r2 => ∀ px py : Int, ¬(r1.memb px py = true ∧ r2.memb px py = true)) ∧
    (∀ px py : Int, (∃ r ∈ mk_disjoint A [], r.memb px py = true) ↔
      (∃ a ∈ A, a.nonDeg = true ∧ a.memb px py = true)) := by
  refine ⟨mk_disjoint_nonDeg A [], ?_, ?_⟩
  · refine (mk_disjoint_rowform A []).imp ?_
    intro a b hab
    rintro px py ⟨h1, h2⟩
    rw [memb_iff] at h1 h2
    rcases hab with ⟨hy, hh, hx⟩ | hy <;> omega
  · intro px py
    rw [mk_disjoint_cover A [] px py]
    constructor
    · rintro ⟨⟨a, ha, hm⟩, _⟩
      exact ⟨a, ha, Rect.memb_nonDeg a px py hm, hm⟩
    · rintro ⟨a, ha, hnd, hm⟩
      refine ⟨⟨a, ha, hm⟩, ?_⟩
      rintro ⟨c, hc, _⟩
      exact absurd hc (List.not_mem_nil c)

theorem C1_witness :
    ∃ r ∈ mk_disjoint [Rect.mk 0 0 2 2] [], r.memb 1 1 = true :=
  ((C1_disjoint_difference_spec [Rect.mk 0 0 2 2]).2.2 1 1).mpr
    ⟨Rect.mk 0 0 2 2, List.mem_cons_self _ _, by decide, by decide⟩

/-- C8: every rectangle emitted by `mk_disjoint` spans exactly one grid
row in height and one maximal horizontal run of `ADD`-only cells, runs
are never merged vertically, and the output is the row-major (row, then
column) enumeration of these runs (`specRowRects`). -/
theorem C8_row_major_runs (add rm : List Rect) :
    mk_disjoint add rm = specRowRects add rm ∧
    (∀ r ∈ mk_disjoint add rm, ∃ i se,
      i < (yEdges (add ++ rm)).length - 1 ∧
      se ∈ runs (addOnly (gridFlag add rm (xEdges (add ++ rm)) (yEdges (add ++ rm))) i)
        ((xEdges (add ++ rm)).length - 1) ∧
      r = runRect (xEdges (add ++ rm)) (yEdges (add ++ rm)) i se ∧
      se.1 < se.2 ∧ se.2 ≤ (xEdges (add ++ rm)).length - 1 ∧
      (∀ t, se.1 ≤ t → t < se.2 →
        addOnly (gridFlag add rm (xEdges (add ++ rm)) (yEdges (add ++ rm))) i t = true) ∧
      (se.1 = 0 ∨
        addOnly (gridFlag add rm (xEdges (add ++ rm)) (yEdges (add ++ rm))) i
          (se.1 - 1) = false) ∧
      (se.2 = (xEdges (add ++ rm)).length - 1 ∨
        addOnly (gridFlag add rm (xEdges (add ++ rm)) (yEdges (add ++ rm))) i
          se.2 = false)) := by
  refine ⟨mk_disjoint_eq_spec add rm, ?_⟩
  intro r hr
  rw [mk_disjoint_eq_spec] at hr
  unfold specRowRects at hr
  dsimp only at hr
  rw [List.mem_flatMap] at hr
  obtain ⟨i, hi, hm⟩ := hr
  rw [List.mem_map] at hm
  obtain ⟨se, hse, rfl⟩ := hm
  rw [List.mem_range] at hi
  obtain ⟨p1, _, _⟩ := runs_props
    (addOnly (gridFlag add rm (xEdges (add ++ rm)) (yEdges (add ++ rm))) i)
    ((xEdges (add ++ rm)).length - 1)
  obtain ⟨q1, q2, q3, q4, q5⟩ := p1 se hse
  exact ⟨i, se, hi, hse, rfl, q1, q2, q3, q4, q5⟩

theorem C8_witness :
    mk_disjoint [Rect.mk 0 0 2 2] [] = specRowRects [Rect.mk 0 0 2 2] [] :=
  (C8_row_major_runs [Rect.mk 0 0 2 2] []).1

/-- C3 counterexample: the degenerate rectangle `(5, 7, 0, 3)` (zero
width) does contribute edge coordinates: `5` enters the x-edge set and
`7`, `10` enter the y-edge set, contradicting the claim that degenerate
rectangles contribute no edges. -/
theorem C3_counterexample :
    (Rect.mk 5 7 0 3).w = 0 ∧
    xEdges ([Rect.mk 5 7 0 3] ++ []) = [5] ∧
    yEdges ([Rect.mk 5 7 0 3] ++ []) = [7, 10] := by decide

lemma markCond_of_deg (xs ys : List Int) (r : Rect) (hdeg : r.nonDeg = false)
    (i j : Nat) : markCond xs ys r i j = false := by
  unfold Rect.nonDeg at hdeg
  unfold markCond
  by_cases h : (decide (0 < r.w)) = true
  · have h2 : (decide (0 < r.h)) = false := by
      rw [h] at hdeg
      simpa using hdeg
    simp [h2]
  · have h1 : (decide (0 < r.w)) = false := by simpa using h
    simp [h1]

/-- C3 amended: every input rectangle of `mk_disjoint`, degenerate or
not, contributes its `x`/`x+w` coordinates to the x-edge set and its
`y`/`y+h` coordinates to the y-edge set; degenerate rectangles are
excluded only from the grid-marking step. -/
theorem C3_amended (add rm : List Rect) (r : Rect) (hr : r ∈ add ++ rm) :
    (r.x ∈ xEdges (add ++ rm) ∧ r.x + r.w ∈ xEdges (add ++ rm) ∧
     r.y ∈ yEdges (add ++ rm) ∧ r.y + r.h ∈ yEdges (add ++ rm)) ∧
    (r.nonDeg = false → ∀ i j,
      markCond (xEdges (add ++ rm)) (yEdges (add ++ rm)) r i j = false) :=
  ⟨edges_present (add ++ rm) r hr, fun hdeg i j => markCond_of_deg _ _ r hdeg i j⟩

theorem C3_witness :
    ((Rect.mk 5 7 0 3).x ∈ xEdges ([Rect.mk 5 7 0 3] ++ []) ∧
     (Rect.mk 5 7 0 3).x + (Rect.mk 5 7 0 3).w ∈ xEdges ([Rect.mk 5 7 0 3] ++ []) ∧
     (Rect.mk 5 7 0 3).y ∈ yEdges ([Rect.mk 5 7 0 3] ++ []) ∧
     (Rect.mk 5 7 0 3).y + (Rect.mk 5 7 0 3).h ∈ yEdges ([Rect.mk 5 7 0 3] ++ [])) ∧
    ((Rect.mk 5 7 0 3).nonDeg = false → ∀ i j,
      markCond (xEdges ([Rect.mk 5 7 0 3] ++ [])) (yEdges ([Rect.mk 5 7 0 3] ++ []))
        (Rect.mk 5 7 0 3) i j = false) :=
  C3_amended [Rect.mk 5 7 0 3] [] (Rect.mk 5 7 0 3) (List.mem_cons_self _ _)

/-!
## The frame compositor `fastdraw`

The drawable capability object (a `Graphic` of the host scene graph) is
modelled as a structure: its attribute slots are data fields and its
callback slots are explicit result fields (`none` models a raising
callback).  The target surface carries no observable state for the
claims and is omitted; a draw call is recorded by the rectangle list
passed to it.
-/

/-- Rectangle clipping as provided by the external rect library
(`pygame.Rect.clip`, used by the source as `r.clip(other)`): the
intersection when non-empty, else the degenerate rectangle
`(a.x, a.y, 0, 0)`. -/
def Rect.clip (a b : Rect) : Rect :=
  let x1 := max a.x b.x
  let y1 := max a.y b.y
  let x2 := min (a.x + a.w) (b.x + b.w)
  let y2 := min (a.y + a.h) (b.y + b.h)
  if x1 < x2 ∧ y1 < y2 then ⟨x1, y1, x2 - x1, y2 - y1⟩ else ⟨a.x, a.y, 0, 0⟩

/-- The drawable capability consumed by `fastdraw`. -/
structure Graphic where
  dirty : List Rect
  wasVisible : Bool
  visible : Bool
  lastRect : Rect
  rect : Rect
  preDrawRes : Option (List Rect)
  opaqueIn : Rect → Option Bool
  drawOk : Bool

/-- Per-drawable body of the dirty-collection loop (lines 209-250):
invoke `_pre_draw` (propagating failure), read the post-hook `_dirty`,
replace it by a single bounding rect on a visibility toggle, clip every
entry against the bounding rect of each currently-true visibility state
and append all results (degenerate ones included) to the global dirty
list, then cache `was_visible := visible`. -/
def collectGraphic (D : List Rect) (g : Graphic) : Option (List Rect × Graphic) :=
  match g.preDrawRes with
  | none => none
  | some d0 =>
    let gd := if g.wasVisible != g.visible then
        [if g.visible then g.rect else g.lastRect]
      else d0
    let D1 := if g.wasVisible then D ++ gd.map (fun r => Rect.clip r g.lastRect) else D
    let D2 := if g.visible then D1 ++ gd.map (fun r => Rect.clip r g.rect) else D1
    some (D2, { g with dirty := d0, wasVisible := g.visible })

/-- The collection loop over one layer's drawables; the `Bool` result is
the error flag, and on failure the failing drawable and all following
ones are returned unchanged. -/
def collectLayer : List Rect → List Graphic → List Rect × List Graphic × Bool
  | D, [] => (D, [], false)
  | D, g :: gs =>
    match collectGraphic D g with
    | none => (D, g :: gs, true)
    | some (D1, g1) =>
      let r := collectLayer D1 gs
      (r.1, g1 :: r.2.1, r.2.2)

/-- The collection loop over all layers in ascending order. -/
def collectAll : List Rect → List (List Graphic) → List Rect × List (List Graphic) × Bool
  | D, [] => (D, [], false)
  | D, gs :: rest =>
    let r := collectLayer D gs
    if r.2.2 then (r.1, r.2.1 :: rest, true)
    else
      let r2 := collectAll r.1 rest
      (r2.1, r.2.1 :: r2.2.1, r2.2.2)

/-- The per-dirty-rect chain of the occlusion pass (lines 271-295): clip
the running rect against each drawable's `_postrot_rect` in turn, ask
`_opaque_in` (failure propagates), and stop as soon as the clip is
degenerate or reported non-opaque.  Returns the final clip and whether
the whole chain succeeded. -/
def opaqueChain : Rect → List Graphic → Option (Rect × Bool)
  | r, [] => some (r, true)
  | r, g :: gs =>
    let r1 := Rect.clip r g.rect
    match g.opaqueIn r1 with
    | none => none
    | some t =>
      if r1.nonDeg && t then opaqueChain r1 gs else some (r1, false)

/-- One layer's opaque-region list `l_dirty_opaque`: the surviving final
clips of every dirty rect. -/
def opaqueLayer (gs : List Graphic) : List Rect → Option (List Rect)
  | [] => some []
  | r :: rest =>
    match opaqueChain r gs with
    | none => none
    | some (r1, good) =>
      match opaqueLayer gs rest with
      | none => none
      | some l => some ((if good then [r1] else []) ++ l)

/-- The occlusion loop over layers (lines 264-305): each layer's
`dirty_by_layer` entry is `mk_disjoint dirty dirty_opaque` with the
opaque list accumulated so far; the layer's own opaque list is
concatenated afterwards. -/
def cullLayers (D : List Rect) : List Rect → List (List Graphic) →
    Option (List (List Rect) × List Rect)
  | op, [] => some ([], op)
  | op, gs :: rest =>
    match opaqueLayer gs D with
    | none => none
    | some lop =>
      match cullLayers D (op ++ lop) rest with
      | none => none
      | some (dbl, opf) => some (mk_disjoint D op :: dbl, opf)

/-- One layer of the draw pass (lines 313-340): for each visible
drawable clip the layer's dirty rects against its bounding rect, keep
the non-degenerate ones, call `_draw` when any remain (failure aborts
before the dirty list is cleared), and reset `_dirty` to the empty list
for every drawable reached. -/
def drawLayer (rs : List Rect) : List Graphic → List Graphic × List (List Rect) × Bool
  | [] => ([], [], false)
  | g :: gs =>
    if g.visible then
      let dIn := (rs.map (fun r => Rect.clip g.rect r)).filter (fun r => r.nonDeg)
      if dIn.isEmpty then
        let rest := drawLayer rs gs
        ({ g with dirty := [] } :: rest.1, rest.2.1, rest.2.2)
      else if g.drawOk then
        let rest := drawLayer rs gs
        ({ g with dirty := [] } :: rest.1, dIn :: rest.2.1, rest.2.2)
      else
        (g :: gs, [dIn], true)
    else
      let rest := drawLayer rs gs
      ({ g with dirty := [] } :: rest.1, rest.2.1, rest.2.2)

/-- The draw pass over the reversed (descending-index) layer list. -/
def drawPassRev : List (List Rect × List Graphic) →
    List (List Graphic) × List (List Rect) × Bool
  | [] => ([], [], false)
  | (rs, gs) :: rest =>
    let lr := drawLayer rs gs
    if lr.2.2 then (lr.1 :: rest.map (fun p => p.2), lr.2.1, true)
    else
      let rr := drawPassRev rest
      (lr.1 :: rr.1, lr.2.1 ++ rr.2.1, rr.2.2)

/-- The draw pass (lines 309-341), iterating layers from the highest
index down; the per-layer graphic lists are returned in original layer
order and the issued draw calls in call order. -/
def drawPass (dbl : List (List Rect)) (gss : List (List Graphic)) :
    List (List Graphic) × List (List Rect) × Bool :=
  let res := drawPassRev (List.zip dbl gss).reverse
  (res.1.reverse, res.2.1, res.2.2)

/-- Outcome of a `fastdraw` call: an error propagated from a drawable
callback, the `Py_False` nothing-to-draw sentinel, or the final disjoint
dirty list. -/
inductive FdOut where
  | err : FdOut
  | noDraw : FdOut
  | done : List Rect → FdOut
deriving DecidableEq, Repr

/-- Observable result of a `fastdraw` call: the post-call drawable
states, the `dirty_by_layer` lists, the rectangle lists passed to draw
calls, and the outcome. -/
structure FdRes where
  gs : List (List Graphic)
  dirtyByLayer : List (List Rect)
  draws : List (List Rect)
  out : FdOut

/-- `fastdraw` from the source: dirty collection (mutating the
drawables' `was_visible`), the `Py_False` fast path on an empty dirty
list, the occlusion pass, the draw pass, and the final aggregation
`mk_disjoint (concat dirty_by_layer) []`. -/
def fastdraw (gss : List (List Graphic)) (initDirty : List Rect) : FdRes :=
  let c := collectAll initDirty gss
  if c.2.2 then ⟨c.2.1, [], [], FdOut.err⟩
  else if c.1.isEmpty then ⟨c.2.1, [], [], FdOut.noDraw⟩
  else
    match cullLayers c.1 [] c.2.1 with
    | none => ⟨c.2.1, [], [], FdOut.err⟩
    | some (dbl, _) =>
      let dp := drawPass dbl c.2.1
      if dp.2.2 then ⟨dp.1, dbl, dp.2.1, FdOut.err⟩
      else ⟨dp.1, dbl, dp.2.1,
        FdOut.done (mk_disjoint (dbl.foldl (fun acc l => acc ++ l) []) [])⟩

lemma clip_self (r : Rect) (h : r.nonDeg = true) : Rect.clip r r = r := by
  obtain ⟨x, y, w, h0⟩ := r
  unfold Rect.nonDeg at h
  simp only [Bool.and_eq_true, decide_eq_true_eq] at h
  unfold Rect.clip
  dsimp only
  rw [max_self, max_self, min_self, min_self]
  rw [if_pos ⟨by omega, by omega⟩]
  simp only [Rect.mk.injEq]
  exact ⟨trivial, trivial, by omega, by omega⟩

/-- C4: a drawable with `was_visible = true`, `visible = false` and a
non-degenerate previous bounding rect makes the collection pass append
exactly one rectangle — that previous bounding rect — to the global
dirty list, whatever its local dirty list (the pre-draw hook result)
contains; its `was_visible` cache is set to `false`. -/
theorem C4_visibility_toggle (D : List Rect) (g : Graphic) (d0 : List Rect)
    (hpd : g.preDrawRes = some d0) (hwv : g.wasVisible = true)
    (hv : g.visible = false) (hnd : g.lastRect.nonDeg = true) :
    collectGraphic D g = some (D ++ [g.lastRect],
      { g with dirty := d0, wasVisible := false }) := by
  unfold collectGraphic
  rw [hpd]
  simp [hwv, hv, clip_self g.lastRect hnd]

def c4g : Graphic :=
  ⟨[], true, false, ⟨0, 0, 3, 3⟩, ⟨1, 1, 1, 1⟩, some [⟨9, 9, 1, 1⟩],
    fun _ => some true, true⟩

theorem C4_witness :
    collectGraphic [] c4g = some ([] ++ [c4g.lastRect],
      { c4g with dirty := [⟨9, 9, 1, 1⟩], wasVisible := false }) :=
  C4_visibility_toggle [] c4g [⟨9, 9, 1, 1⟩] rfl rfl rfl (by decide)

/-- C7: when `fastdraw` is called with an empty initial dirty list and
the collection pass yields no dirty rectangle (and no callback failure),
the call returns the `Py_False` sentinel and issues no draw call. -/
theorem C7_none_fast_path (gss gss1 : List (List Graphic))
    (h : collectAll [] gss = ([], gss1, false)) :
    (fastdraw gss []).out = FdOut.noDraw ∧ (fastdraw gss []).draws = [] := by
  unfold fastdraw
  rw [h]
  exact ⟨rfl, rfl⟩

def idleGraphic (r : Rect) : Graphic :=
  ⟨[], true, true, r, r, some [], fun _ => some true, true⟩

theorem C7_witness :
    (fastdraw [[idleGraphic ⟨0, 0, 4, 4⟩]] []).out = FdOut.noDraw ∧
    (fastdraw [[idleGraphic ⟨0, 0, 4, 4⟩]] []).draws = [] :=
  C7_none_fast_path [[idleGraphic ⟨0, 0, 4, 4⟩]]
    [[{ idleGraphic ⟨0, 0, 4, 4⟩ with dirty := [], wasVisible := true }]] rfl

lemma opaqueLayer_nil_graphics : ∀ D : List Rect,
    opaqueLayer ([] : List Graphic) D = some D := by
  intro D
  induction D with
  | nil => rfl
  | cons r rest ih => simp [opaqueLayer, opaqueChain, ih]

lemma opaqueLayer_mem (gs : List Graphic) :
    ∀ (D lop : List Rect), opaqueLayer gs D = some lop →
    ∀ r ∈ D, ∀ r1, opaqueChain r gs = some (r1, true) → r1 ∈ lop := by
  intro D
  induction D with
  | nil =>
    intro lop h r hr
    simp at hr
  | cons r0 rest ih =>
    intro lop h r hr r1 hch
    unfold opaqueLayer at h
    rcases hc0 : opaqueChain r0 gs with _ | ⟨r2, good⟩
    · rw [hc0] at h
      cases h
    · rw [hc0] at h
      rcases hrest : opaqueLayer gs rest with _ | l2
      · rw [hrest] at h
        cases h
      · rw [hrest] at h
        have hl : lop = (if good then [r2] else []) ++ l2 := (Option.some.inj h).symm
        subst hl
        rcases List.mem_cons.mp hr with rfl | hr2
        · rw [hch] at hc0
          have hpair := Option.some.inj hc0
          have h1 : r1 = r2 := (Prod.mk.inj hpair).1
          have h2 : good = true := ((Prod.mk.inj hpair).2).symm
          subst h1
          rw [h2]
          simp
        · exact List.mem_append_right _ (ih l2 hrest r hr2 r1 hch)

lemma cullLayers_layers :
    ∀ (gss : List (List Graphic)) (D op : List Rect)
      (res : List (List Rect) × List Rect),
    cullLayers D op gss = some res →
    ∀ (i : Nat) (gsi : List Graphic), gss[i]? = some gsi →
      ∃ lop, opaqueLayer gsi D = some lop := by
  intro gss
  induction gss with
  | nil =>
    intro D op res h i gsi hgsi
    simp at hgsi
  | cons gs0 rest ih =>
    intro D op res h i gsi hgsi
    unfold cullLayers at h
    rcases hol : opaqueLayer gs0 D with _ | lop0
    · rw [hol] at h
      cases h
    · rw [hol] at h
      dsimp only at h
      rcases hcl : cullLayers D (op ++ lop0) rest with _ | p
      · rw [hcl] at h
        cases h
      · cases i with
        | zero =>
          rw [List.getElem?_cons_zero] at hgsi
          have hg : gsi = gs0 := (Option.some.inj hgsi).symm
          subst hg
          exact ⟨lop0, hol⟩
        | succ i2 =>
          rw [List.getElem?_cons_succ] at hgsi
          exact ih D (op ++ lop0) p hcl i2 gsi hgsi

lemma cullLayers_dbl :
    ∀ (gss : List (List Graphic)) (D op : List Rect)
      (dbl : List (List Rect)) (opf : List Rect),
    cullLayers D op gss = some (dbl, opf) →
    ∀ (k : Nat) (l : List Rect), dbl[k]? = some l →
      ∃ opk : List Rect, l = mk_disjoint D opk ∧
      (∀ x ∈ op, x ∈ opk) ∧
      (∀ (i : Nat) (gsi : List Graphic) (lop : List Rect), i < k →
        gss[i]? = some gsi → opaqueLayer gsi D = some lop →
        ∀ x ∈ lop, x ∈ opk) := by
  intro gss
  induction gss with
  | nil =>
    intro D op dbl opf h k l hk
    unfold cullLayers at h
    have hd : dbl = [] := ((Prod.mk.inj (Option.some.inj h)).1).symm
    subst hd
    simp at hk
  | cons gs0 rest ih =>
    intro D op dbl opf h k l hk
    unfold cullLayers at h
    rcases hol : opaqueLayer gs0 D with _ | lop0
    · rw [hol] at h
      cases h
    · rw [hol] at h
      dsimp only at h
      rcases hcl : cullLayers D (op ++ lop0) rest with _ | ⟨dbl2, opf2⟩
      · rw [hcl] at h
        cases h
      · rw [hcl] at h
        dsimp only at h
        have hd : dbl = mk_disjoint D op :: dbl2 :=
          ((Prod.mk.inj (Option.some.inj h)).1).symm
        subst hd
        cases k with
        | zero =>
          rw [List.getElem?_cons_zero] at hk
          have hl : l = mk_disjoint D op := (Option.some.inj hk).symm
          refine ⟨op, hl, fun x hx => hx, ?_⟩
          intro i gsi lop hi
          omega
        | succ k2 =>
          rw [List.getElem?_cons_succ] at hk
          obtain ⟨opk, he, hop, hlayers⟩ := ih D (op ++ lop0) dbl2 opf2 hcl k2 l hk
          refine ⟨opk, he, fun x hx => hop x (List.mem_append_left _ hx), ?_⟩
          intro i gsi lop hi hgsi holi x hx
          cases i with
          | zero =>
            rw [List.getElem?_cons_zero] at hgsi
            have hg : gsi = gs0 := (Option.some.inj hgsi).symm
            subst hg
            rw [hol] at holi
            have : lop = lop0 := (Option.some.inj holi).symm
            subst this
            exact hop x (List.mem_append_right _ hx)
          | succ i2 =>
            rw [List.getElem?_cons_succ] at hgsi
            exact hlayers i2 gsi lop (by omega) hgsi holi x hx

def c2A : Graphic :=
  ⟨[], true, true, ⟨0, 0, 1, 1⟩, ⟨0, 0, 1, 1⟩, some [], fun _ => some true, true⟩

def c2B : Graphic :=
  ⟨[], true, true, ⟨5, 5, 1, 1⟩, ⟨5, 5, 1, 1⟩, some [], fun _ => some true, true⟩

/-- C2 counterexample: the dirty rect `(0,0,1,1)` is fully covered by
drawable `c2A` of layer 0 (clipping it against `c2A`'s bounding rect
leaves it unchanged) and `c2A` reports itself opaque over the clipped
region, yet because the chain also clips against the non-overlapping
drawable `c2B` in the same layer the region is not recorded as opaque,
and it reappears in `dirty_by_layer` of the later layer 1. -/
theorem C2_counterexample :
    Rect.clip (Rect.mk 0 0 1 1) c2A.rect = Rect.mk 0 0 1 1 ∧
    c2A.opaqueIn (Rect.clip (Rect.mk 0 0 1 1) c2A.rect) = some true ∧
    (Rect.mk 0 0 1 1).memb 0 0 = true ∧
    (fastdraw [[c2A, c2B], []] [Rect.mk 0 0 1 1]).dirtyByLayer
      = [[Rect.mk 0 0 1 1], [Rect.mk 0 0 1 1]] := by
  refine ⟨by decide, rfl, by decide, rfl⟩

/-- C2 amended: if a dirty rectangle survives layer `i`'s whole
occlusion chain — successive clipping against every drawable of the
layer stays non-degenerate and each drawable reports itself opaque over
the running clip — then no point of the surviving clipped region appears
in `dirty_by_layer` of any later layer `j > i`. -/
theorem C2_amended (D op : List Rect) (gss : List (List Graphic))
    (dbl : List (List Rect)) (opf : List Rect)
    (hcull : cullLayers D op gss = some (dbl, opf))
    (r : Rect) (hr : r ∈ D) (i : Nat) (gsi : List Graphic)
    (hgsi : gss[i]? = some gsi)
    (r1 : Rect) (hchain : opaqueChain r gsi = some (r1, true))
    (j : Nat) (hij : i < j) (px py : Int) (hp : r1.memb px py = true) :
    ∀ s ∈ dbl.getD j [], s.memb px py = false := by
  intro s hs
  rcases hdb : dbl[j]? with _ | l
  · rw [List.getD_eq_getElem?_getD, hdb] at hs
    simp at hs
  · rw [List.getD_eq_getElem?_getD, hdb] at hs
    simp only [Option.getD_some] at hs
    obtain ⟨opk, hle, hop, hlayers⟩ := cullLayers_dbl gss D op dbl opf hcull j l hdb
    have hr1 : r1 ∈ opk := hlayers i gsi
      ((opaqueLayer gsi D).getD []) hij hgsi
      (by
        obtain ⟨lop, holp⟩ := cullLayers_layers gss D op (dbl, opf) hcull i gsi hgsi
        rw [holp]
        rfl) r1
      (by
        obtain ⟨lop, holp⟩ := cullLayers_layers gss D op (dbl, opf) hcull i gsi hgsi
        have := opaqueLayer_mem gsi D lop holp r hr r1 hchain
        rw [holp]
        simpa using this)
    by_cases hsm : s.memb px py = true
    · exfalso
      rw [hle] at hs
      have hcov := (mk_disjoint_cover D opk px py).mp ⟨s, hs, hsm⟩
      exact hcov.2 ⟨r1, hr1, hp⟩
    · simpa using hsm

def c2W : Graphic :=
  ⟨[], true, true, ⟨0, 0, 1, 1⟩, ⟨0, 0, 1, 1⟩, some [], fun _ => some true, true⟩

theorem C2_witness : (Rect.mk 10 10 1 1).memb 0 0 = false :=
  C2_amended [Rect.mk 0 0 1 1, Rect.mk 10 10 1 1] [] [[c2W], []]
    [[Rect.mk 0 0 1 1, Rect.mk 10 10 1 1], [Rect.mk 10 10 1 1]]
    [Rect.mk 0 0 1 1, Rect.mk 0 0 1 1, Rect.mk 10 10 1 1] (by rfl)
    (Rect.mk 0 0 1 1) (List.mem_cons_self _ _) 0 [c2W] rfl
    (Rect.mk 0 0 1 1) (by rfl) 1 (by omega) 0 0 (by decide)
    (Rect.mk 10 10 1 1) (by decide)

/-- C9: when the occlusion pass reaches a layer with no drawables, every
current dirty rectangle passes the (empty) chain unchanged and is
appended to the accumulated opaque list, so `dirty_by_layer` of every
later layer is exactly the empty list. -/
theorem C9_empty_layer_occlusion (D op : List Rect) (gss : List (List Graphic))
    (dbl : List (List Rect)) (opf : List Rect) (i : Nat)
    (hcull : cullLayers D op gss = some (dbl, opf))
    (hi : gss[i]? = some ([] : List Graphic)) :
    opaqueLayer ([] : List Graphic) D = some D ∧
    (∀ j, i < j → dbl.getD j [] = []) := by
  refine ⟨opaqueLayer_nil_graphics D, ?_⟩
  intro j hij
  rcases hdb : dbl[j]? with _ | l
  · rw [List.getD_eq_getElem?_getD, hdb]
    rfl
  · rw [List.getD_eq_getElem?_getD, hdb]
    simp only [Option.getD_some]
    obtain ⟨opk, hle, hop, hlayers⟩ := cullLayers_dbl gss D op dbl opf hcull j l hdb
    have hDsub : ∀ x ∈ D, x ∈ opk := fun x hx =>
      hlayers i [] D hij hi (opaqueLayer_nil_graphics D) x hx
    rw [hle]
    apply mk_disjoint_nil_of_subset
    rintro px py ⟨a, ha, hma⟩
    exact ⟨a, hDsub a ha, hma⟩

theorem C9_witness :
    opaqueLayer ([] : List Graphic) [Rect.mk 0 0 1 1] = some [Rect.mk 0 0 1 1] ∧
    (∀ j, 0 < j →
      ([mk_disjoint [Rect.mk 0 0 1 1] []] : List (List Rect)).getD j [] = []) :=
  C9_empty_layer_occlusion [Rect.mk 0 0 1 1] [] [[]]
    [mk_disjoint [Rect.mk 0 0 1 1] []] [Rect.mk 0 0 1 1] 0 (by rfl) rfl

lemma collectGraphic_none (D : List Rect) (g : Graphic) (h : g.preDrawRes = none) :
    collectGraphic D g = none := by
  unfold collectGraphic
  rw [h]

lemma collectGraphic_some (D : List Rect) (g : Graphic) (d0 : List Rect)
    (h : g.preDrawRes = some d0) :
    ∃ D1, collectGraphic D g = some (D1, { g with dirty := d0, wasVisible := g.visible }) := by
  unfold collectGraphic
  rw [h]
  exact ⟨_, rfl⟩

lemma collectLayer_spec :
    ∀ (gs : List Graphic) (D : List Rect),
    (collectLayer D gs).2.2 = false →
    ∀ (j : Nat) (g : Graphic), gs[j]? = some g →
    ∃ g1 d, (collectLayer D gs).2.1[j]? = some g1 ∧
      g.preDrawRes = some d ∧ g1.wasVisible = g.visible ∧ g1.dirty = d := by
  intro gs
  induction gs with
  | nil =>
    intro D h j g hg
    simp at hg
  | cons g0 t ih =>
    intro D h j g hg
    rcases hpd : g0.preDrawRes with _ | d0
    · have hcg := collectGraphic_none D g0 hpd
      unfold collectLayer at h
      rw [hcg] at h
      simp at h
    · obtain ⟨D1, hcg⟩ := collectGraphic_some D g0 d0 hpd
      unfold collectLayer at h ⊢
      rw [hcg] at h ⊢
      dsimp only at h ⊢
      cases j with
      | zero =>
        rw [List.getElem?_cons_zero] at hg
        have hgg : g = g0 := (Option.some.inj hg).symm
        subst hgg
        refine ⟨{ g with dirty := d0, wasVisible := g.visible }, d0, ?_, hpd, rfl, rfl⟩
        rw [List.getElem?_cons_zero]
      | succ j2 =>
        rw [List.getElem?_cons_succ] at hg
        obtain ⟨g1, d, hidx, hieq, hw, hd⟩ := ih D1 h j2 g hg
        refine ⟨g1, d, ?_, hieq, hw, hd⟩
        rw [List.getElem?_cons_succ]
        exact hidx

lemma collectAll_spec :
    ∀ (gss : List (List Graphic)) (D0 : List Rect),
    (collectAll D0 gss).2.2 = false →
    ∀ (i : Nat) (gs : List Graphic), gss[i]? = some gs →
    ∃ gs1, (collectAll D0 gss).2.1[i]? = some gs1 ∧
      ∀ (j : Nat) (g : Graphic), gs[j]? = some g →
      ∃ g1 d, gs1[j]? = some g1 ∧
        g.preDrawRes = some d ∧ g1.wasVisible = g.visible ∧ g1.dirty = d := by
  intro gss
  induction gss with
  | nil =>
    intro D0 h i gs hgs
    simp at hgs
  | cons gs0 rest ih =>
    intro D0 h i gs hgs
    unfold collectAll at h ⊢
    by_cases hc : (collectLayer D0 gs0).2.2 = true
    · simp [hc] at h
    · have hc2 : (collectLayer D0 gs0).2.2 = false := by simpa using hc
      simp only [hc2, Bool.false_eq_true, if_false] at h ⊢
      cases i with
      | zero =>
        rw [List.getElem?_cons_zero] at hgs
        have hgg : gs = gs0 := (Option.some.inj hgs).symm
        subst hgg
        refine ⟨(collectLayer D0 gs).2.1, ?_, collectLayer_spec gs D0 hc2⟩
        rw [List.getElem?_cons_zero]
      | succ i2 =>
        rw [List.getElem?_cons_succ] at hgs
        obtain ⟨gs1, hidx, hinner⟩ := ih (collectLayer D0 gs0).1 h i2 gs hgs
        refine ⟨gs1, ?_, hinner⟩
        rw [List.getElem?_cons_succ]
        exact hidx

lemma collectLayer_ok :
    ∀ (gs : List Graphic) (D : List Rect),
    (∀ (j : Nat) (g : Graphic), gs[j]? = some g → g.preDrawRes.isSome = true) →
    (collectLayer D gs).2.2 = false := by
  intro gs
  induction gs with
  | nil =>
    intro D h
    rfl
  | cons g0 t ih =>
    intro D h
    have h0 := h 0 g0 (by rw [List.getElem?_cons_zero])
    rcases hpd : g0.preDrawRes with _ | d0
    · rw [hpd] at h0
      simp at h0
    · obtain ⟨D1, hcg⟩ := collectGraphic_some D g0 d0 hpd
      unfold collectLayer
      rw [hcg]
      dsimp only
      refine ih D1 ?_
      intro j g hj
      refine h (j + 1) g ?_
      rw [List.getElem?_cons_succ]
      exact hj

lemma collectLayer_err :
    ∀ (gs : List Graphic) (j : Nat) (D : List Rect) (g : Graphic),
    gs[j]? = some g → g.preDrawRes = none →
    (∀ (j2 : Nat) (g2 : Graphic), gs[j2]? = some g2 → j2 < j →
      g2.preDrawRes.isSome = true) →
    (collectLayer D gs).2.2 = true ∧
    (∀ (j2 : Nat), j ≤ j2 → (collectLayer D gs).2.1[j2]? = gs[j2]?) ∧
    (∀ (j2 : Nat) (g2 : Graphic), j2 < j → gs[j2]? = some g2 →
      ∃ g1 d, (collectLayer D gs).2.1[j2]? = some g1 ∧
        g2.preDrawRes = some d ∧ g1.wasVisible = g2.visible ∧ g1.dirty = d) := by
  intro gs
  induction gs with
  | nil =>
    intro j D g hg
    simp at hg
  | cons g0 t ih =>
    intro j D g hg hfail hmin
    cases j with
    | zero =>
      rw [List.getElem?_cons_zero] at hg
      have hgg : g = g0 := (Option.some.inj hg).symm
      subst hgg
      have hcg := collectGraphic_none D g hfail
      unfold collectLayer
      rw [hcg]
      exact ⟨rfl, fun j2 _ => rfl, fun j2 g2 hlt _ => absurd hlt (by omega)⟩
    | succ j2 =>
      rw [List.getElem?_cons_succ] at hg
      have h0 := hmin 0 g0 (by rw [List.getElem?_cons_zero]) (by omega)
      rcases hpd : g0.preDrawRes with _ | d0
      · rw [hpd] at h0
        simp at h0
      · obtain ⟨D1, hcg⟩ := collectGraphic_some D g0 d0 hpd
        unfold collectLayer
        rw [hcg]
        dsimp only
        obtain ⟨hflag, hidx, hpre⟩ := ih j2 D1 g hg hfail
          (fun k g2 hk hlt => hmin (k + 1) g2
            (by rw [List.getElem?_cons_succ]; exact hk) (by omega))
        refine ⟨hflag, ?_, ?_⟩
        · intro k hk
          cases k with
          | zero => omega
          | succ k2 =>
            rw [List.getElem?_cons_succ, List.getElem?_cons_succ]
            exact hidx k2 (by omega)
        · intro k g2 hlt hk
          cases k with
          | zero =>
            rw [List.getElem?_cons_zero] at hk
            have hgg : g2 = g0 := (Option.some.inj hk).symm
            subst hgg
            refine ⟨{ g2 with dirty := d0, wasVisible := g2.visible }, d0, ?_, hpd, rfl, rfl⟩
            rw [List.getElem?_cons_zero]
          | succ k2 =>
            rw [List.getElem?_cons_succ] at hk
            obtain ⟨g1, d, hg1, hd1, hw1, hdd⟩ := hpre k2 g2 (by omega) hk
            refine ⟨g1, d, ?_, hd1, hw1, hdd⟩
            rw [List.getElem?_cons_succ]
            exact hg1

lemma collectAll_err :
    ∀ (gss : List (List Graphic)) (i : Nat) (D0 : List Rect) (gs : List Graphic)
      (j : Nat) (g : Graphic),
    gss[i]? = some gs → gs[j]? = some g → g.preDrawRes = none →
    (∀ (i2 : Nat) (gs2 : List Graphic), gss[i2]? = some gs2 →
      ∀ (j2 : Nat) (g2 : Graphic), gs2[j2]? = some g2 →
      (i2 < i ∨ (i2 = i ∧ j2 < j)) → g2.preDrawRes.isSome = true) →
    (collectAll D0 gss).2.2 = true ∧
    (∀ i2 : Nat, i < i2 → (collectAll D0 gss).2.1[i2]? = gss[i2]?) ∧
    (∃ gs1, (collectAll D0 gss).2.1[i]? = some gs1 ∧
      (∀ j2 : Nat, j ≤ j2 → gs1[j2]? = gs[j2]?) ∧
      (∀ (j2 : Nat) (g2 : Graphic), j2 < j → gs[j2]? = some g2 →
        ∃ g1 d, gs1[j2]? = some g1 ∧ g2.preDrawRes = some d ∧
          g1.wasVisible = g2.visible ∧ g1.dirty = d)) ∧
    (∀ (i2 : Nat) (gs2 : List Graphic), i2 < i → gss[i2]? = some gs2 →
      ∃ gs1, (collectAll D0 gss).2.1[i2]? = some gs1 ∧
      ∀ (j2 : Nat) (g2 : Graphic), gs2[j2]? = some g2 →
        ∃ g1 d, gs1[j2]? = some g1 ∧ g2.preDrawRes = some d ∧
          g1.wasVisible = g2.visible ∧ g1.dirty = d) := by
  intro gss
  induction gss with
  | nil =>
    intro i D0 gs j g hgs
    simp at hgs
  | cons gs0 rest ih =>
    intro i D0 gs j g hgs hg hfail hmin
    cases i with
    | zero =>
      rw [List.getElem?_cons_zero] at hgs
      have hgg : gs = gs0 := (Option.some.inj hgs).symm
      subst hgg
      obtain ⟨hflag, hidx, hpre⟩ := collectLayer_err gs j D0 g hg hfail
        (fun j2 g2 hj2 hlt => hmin 0 gs (by rw [List.getElem?_cons_zero]) j2 g2 hj2
          (Or.inr ⟨rfl, hlt⟩))
      unfold collectAll
      simp only [hflag, if_true]
      refine ⟨by trivial, ?_, ?_, ?_⟩
      · intro i2 h2
        cases i2 with
        | zero => omega
        | succ k => rw [List.getElem?_cons_succ, List.getElem?_cons_succ]
      · refine ⟨(collectLayer D0 gs).2.1, ?_, hidx, hpre⟩
        rw [List.getElem?_cons_zero]
      · intro i2 gs2 h2
        omega
    | succ i2 =>
      rw [List.getElem?_cons_succ] at hgs
      have hok : (collectLayer D0 gs0).2.2 = false :=
        collectLayer_ok gs0 D0 (fun j2 g2 hj2 =>
          hmin 0 gs0 (by rw [List.getElem?_cons_zero]) j2 g2 hj2 (Or.inl (by omega)))
      unfold collectAll
      simp only [hok, Bool.false_eq_true, if_false]
      obtain ⟨hflag, hup, hat, hpre⟩ := ih i2 (collectLayer D0 gs0).1 gs j g hgs hg hfail
        (fun k gs2 hk j2 g2 hj2 hcond =>
          hmin (k + 1) gs2 (by rw [List.getElem?_cons_succ]; exact hk) j2 g2 hj2
            (by
              rcases hcond with hc | ⟨hc, hc2⟩
              · exact Or.inl (by omega)
              · exact Or.inr ⟨by omega, hc2⟩))
      refine ⟨hflag, ?_, ?_, ?_⟩
      · intro k hk
        cases k with
        | zero => omega
        | succ k2 =>
          rw [List.getElem?_cons_succ, List.getElem?_cons_succ]
          exact hup k2 (by omega)
      · obtain ⟨gs1, hat1, hat2, hat3⟩ := hat
        refine ⟨gs1, ?_, hat2, hat3⟩
        rw [List.getElem?_cons_succ]
        exact hat1
      · intro k gs2 hk hgs2
        cases k with
        | zero =>
          rw [List.getElem?_cons_zero] at hgs2
          have hgg : gs2 = gs0 := (Option.some.inj hgs2).symm
          subst hgg
          refine ⟨(collectLayer D0 gs2).2.1, ?_, collectLayer_spec gs2 D0 hok⟩
          rw [List.getElem?_cons_zero]
        | succ k2 =>
          rw [List.getElem?_cons_succ] at hgs2
          obtain ⟨gs1, hg1, hrel⟩ := hpre k2 gs2 (by omega) hgs2
          refine ⟨gs1, ?_, hrel⟩
          rw [List.getElem?_cons_succ]
          exact hg1

lemma fastdraw_cases (gss : List (List Graphic)) (D0 : List Rect)
    (D : List Rect) (gss1 : List (List Graphic))
    (h : collectAll D0 gss = (D, gss1, false)) :
    (D = [] ∧ fastdraw gss D0 = ⟨gss1, [], [], FdOut.noDraw⟩) ∨
    (D ≠ [] ∧ cullLayers D [] gss1 = none ∧
      fastdraw gss D0 = ⟨gss1, [], [], FdOut.err⟩) ∨
    (∃ dbl opf, D ≠ [] ∧ cullLayers D [] gss1 = some (dbl, opf) ∧
      (((drawPass dbl gss1).2.2 = true ∧
        fastdraw gss D0 = ⟨(drawPass dbl gss1).1, dbl, (drawPass dbl gss1).2.1, FdOut.err⟩) ∨
       ((drawPass dbl gss1).2.2 = false ∧
        fastdraw gss D0 = ⟨(drawPass dbl gss1).1, dbl, (drawPass dbl gss1).2.1,
          FdOut.done (mk_disjoint (dbl.foldl (fun acc l => acc ++ l) []) [])⟩))) := by
  unfold fastdraw
  rw [h]
  dsimp only
  by_cases hD : D.isEmpty = true
  · left
    rw [List.isEmpty_iff] at hD
    subst hD
    exact ⟨rfl, rfl⟩
  · have hD2 : D ≠ [] := by
      intro hc
      subst hc
      exact hD rfl
    have hD3 : D.isEmpty = false := by simpa using hD
    simp only [hD3, Bool.false_eq_true, if_false]
    rcases hcl : cullLayers D [] gss1 with _ | ⟨dbl, opf⟩
    · right
      left
      exact ⟨hD2, rfl, rfl⟩
    · right
      right
      refine ⟨dbl, opf, hD2, rfl, ?_⟩
      dsimp only
      by_cases hdp : (drawPass dbl gss1).2.2 = true
      · left
        refine ⟨hdp, ?_⟩
        rw [if_pos hdp]
      · right
        have hdp2 : (drawPass dbl gss1).2.2 = false := by simpa using hdp
        refine ⟨hdp2, ?_⟩
        rw [if_neg hdp]

lemma drawLayer_dirty (rs : List Rect) :
    ∀ (gs : List Graphic), (drawLayer rs gs).2.2 = false →
    ∀ g1 ∈ (drawLayer rs gs).1, g1.dirty = ([] : List Rect) := by
  intro gs
  induction gs with
  | nil =>
    intro h g1 hg1
    simp [drawLayer] at hg1
  | cons g t ih =>
    intro h g1 hg1
    unfold drawLayer at h hg1
    by_cases hv : g.visible = true
    · rw [if_pos hv] at h hg1
      dsimp only at h hg1
      by_cases he : ((rs.map (fun r => Rect.clip g.rect r)).filter
          (fun r => r.nonDeg)).isEmpty = true
      · rw [if_pos he] at h hg1
        rcases List.mem_cons.mp hg1 with rfl | hg1
        · rfl
        · exact ih h g1 hg1
      · rw [if_neg he] at h hg1
        by_cases hd : g.drawOk = true
        · rw [if_pos hd] at h hg1
          rcases List.mem_cons.mp hg1 with rfl | hg1
          · rfl
          · exact ih h g1 hg1
        · rw [if_neg hd] at h
          simp at h
    · rw [if_neg hv] at h hg1
      dsimp only at h hg1
      rcases List.mem_cons.mp hg1 with rfl | hg1
      · rfl
      · exact ih h g1 hg1

lemma drawPassRev_dirty :
    ∀ (l : List (List Rect × List Graphic)), (drawPassRev l).2.2 = false →
    ∀ gs1 ∈ (drawPassRev l).1, ∀ g1 ∈ gs1, g1.dirty = ([] : List Rect) := by
  intro l
  induction l with
  | nil =>
    intro h gs1 hgs1
    simp [drawPassRev] at hgs1
  | cons p rest ih =>
    intro h gs1 hgs1 g1 hg1
    obtain ⟨rs, gs⟩ := p
    unfold drawPassRev at h hgs1
    by_cases hf : (drawLayer rs gs).2.2 = true
    · rw [if_pos hf] at h
      simp at h
    · rw [if_neg hf] at h hgs1
      dsimp only at h hgs1
      rcases List.mem_cons.mp hgs1 with rfl | hgs1
      · exact drawLayer_dirty rs gs (by simpa using hf) g1 hg1
      · exact ih h gs1 hgs1 g1 hg1

lemma drawPass_dirty (dbl : List (List Rect)) (gss : List (List Graphic))
    (h : (drawPass dbl gss).2.2 = false) :
    ∀ gs1 ∈ (drawPass dbl gss).1, ∀ g1 ∈ gs1, g1.dirty = ([] : List Rect) := by
  unfold drawPass at h ⊢
  dsimp only at h ⊢
  intro gs1 hgs1 g1 hg1
  rw [List.mem_reverse] at hgs1
  exact drawPassRev_dirty _ h gs1 hgs1 g1 hg1

lemma cullLayers_length :
    ∀ (gss : List (List Graphic)) (D op : List Rect)
      (dbl : List (List Rect)) (opf : List Rect),
    cullLayers D op gss = some (dbl, opf) → dbl.length = gss.length := by
  intro gss
  induction gss with
  | nil =>
    intro D op dbl opf h
    unfold cullLayers at h
    have hd : dbl = [] := ((Prod.mk.inj (Option.some.inj h)).1).symm
    subst hd
    rfl
  | cons gs0 rest ih =>
    intro D op dbl opf h
    unfold cullLayers at h
    rcases hol : opaqueLayer gs0 D with _ | lop0
    · rw [hol] at h
      cases h
    · rw [hol] at h
      dsimp only at h
      rcases hcl : cullLayers D (op ++ lop0) rest with _ | ⟨dbl2, opf2⟩
      · rw [hcl] at h
        cases h
      · rw [hcl] at h
        dsimp only at h
        have hd : dbl = mk_disjoint D op :: dbl2 :=
          ((Prod.mk.inj (Option.some.inj h)).1).symm
        subst hd
        simp only [List.length_cons, List.length_cons]
        rw [ih D (op ++ lop0) dbl2 opf2 hcl]

/-- A draw-pass layer always comes out as a prefix of drawables whose
`_dirty` was reset followed by an untouched suffix (empty exactly when
no `_draw` call in the layer failed). -/
lemma drawLayer_split (rs : List Rect) :
    ∀ (gs : List Graphic), ∃ a b, gs = a ++ b ∧
    (drawLayer rs gs).1 =
      a.map (fun g => { g with dirty := ([] : List Rect) }) ++ b := by
  intro gs
  induction gs with
  | nil => exact ⟨[], [], rfl, rfl⟩
  | cons g t ih =>
    obtain ⟨a, b, hab, hres⟩ := ih
    by_cases hv : g.visible = true
    · by_cases he : ((rs.map (fun r => Rect.clip g.rect r)).filter
          (fun r => r.nonDeg)).isEmpty = true
      · refine ⟨g :: a, b, by rw [List.cons_append, ← hab], ?_⟩
        unfold drawLayer
        rw [if_pos hv]
        dsimp only
        rw [if_pos he]
        dsimp only
        rw [List.map_cons, List.cons_append, hres]
      · by_cases hd : g.drawOk = true
        · refine ⟨g :: a, b, by rw [List.cons_append, ← hab], ?_⟩
          unfold drawLayer
          rw [if_pos hv]
          dsimp only
          rw [if_neg he, if_pos hd]
          dsimp only
          rw [List.map_cons, List.cons_append, hres]
        · refine ⟨[], g :: t, rfl, ?_⟩
          unfold drawLayer
          rw [if_pos hv]
          dsimp only
          rw [if_neg he, if_neg hd]
          rfl
    · refine ⟨g :: a, b, by rw [List.cons_append, ← hab], ?_⟩
      unfold drawLayer
      rw [if_neg hv]
      dsimp only
      rw [List.map_cons, List.cons_append, hres]

lemma drawPassRev_length :
    ∀ (l : List (List Rect × List Graphic)), (drawPassRev l).1.length = l.length := by
  intro l
  induction l with
  | nil => rfl
  | cons p rest ih =>
    obtain ⟨rs, gs⟩ := p
    unfold drawPassRev
    by_cases hf : (drawLayer rs gs).2.2 = true
    · rw [if_pos hf]
      simp only [List.length_cons, List.length_map]
    · rw [if_neg hf]
      dsimp only
      simp only [List.length_cons]
      rw [ih]

lemma drawPassRev_split :
    ∀ (l : List (List Rect × List Graphic)) (k : Nat) (rs : List Rect)
      (gs0 : List Graphic),
    l[k]? = some (rs, gs0) →
    ∃ a b, gs0 = a ++ b ∧
      (drawPassRev l).1[k]? =
        some (a.map (fun g => { g with dirty := ([] : List Rect) }) ++ b) := by
  intro l
  induction l with
  | nil =>
    intro k rs gs0 hk
    simp at hk
  | cons p rest ih =>
    intro k rs gs0 hk
    obtain ⟨rs0, gsh⟩ := p
    by_cases hf : (drawLayer rs0 gsh).2.2 = true
    · cases k with
      | zero =>
        rw [List.getElem?_cons_zero] at hk
        have h4 : gsh = gs0 := (Prod.mk.inj (Option.some.inj hk)).2
        subst h4
        obtain ⟨a, b, hab, hres⟩ := drawLayer_split rs0 gsh
        refine ⟨a, b, hab, ?_⟩
        unfold drawPassRev
        rw [if_pos hf]
        dsimp only
        rw [List.getElem?_cons_zero, hres]
      | succ k2 =>
        rw [List.getElem?_cons_succ] at hk
        refine ⟨[], gs0, rfl, ?_⟩
        unfold drawPassRev
        rw [if_pos hf]
        dsimp only
        rw [List.getElem?_cons_succ, List.getElem?_map, hk]
        rfl
    · cases k with
      | zero =>
        rw [List.getElem?_cons_zero] at hk
        have h4 : gsh = gs0 := (Prod.mk.inj (Option.some.inj hk)).2
        subst h4
        obtain ⟨a, b, hab, hres⟩ := drawLayer_split rs0 gsh
        refine ⟨a, b, hab, ?_⟩
        unfold drawPassRev
        rw [if_neg hf]
        dsimp only
        rw [List.getElem?_cons_zero, hres]
      | succ k2 =>
        rw [List.getElem?_cons_succ] at hk
        obtain ⟨a, b, hab, hres⟩ := ih k2 rs gs0 hk
        refine ⟨a, b, hab, ?_⟩
        unfold drawPassRev
        rw [if_neg hf]
        dsimp only
        rw [List.getElem?_cons_succ]
        exact hres

lemma zip_getElem2 {α β : Type} :
    ∀ (l1 : List α) (l2 : List β) (i : Nat) (a : α) (b : β),
    l1[i]? = some a → l2[i]? = some b → (List.zip l1 l2)[i]? = some (a, b) := by
  intro l1
  induction l1 with
  | nil =>
    intro l2 i a b h1
    simp at h1
  | cons x t ih =>
    intro l2 i a b h1 h2
    cases l2 with
    | nil => simp at h2
    | cons y t2 =>
      cases i with
      | zero =>
        rw [List.getElem?_cons_zero] at h1 h2
        rw [List.zip_cons_cons, List.getElem?_cons_zero]
        rw [Option.some.inj h1, Option.some.inj h2]
      | succ i2 =>
        rw [List.getElem?_cons_succ] at h1 h2
        rw [List.zip_cons_cons, List.getElem?_cons_succ]
        exact ih t2 i2 a b h1 h2

/-- Layer-indexed form of `drawLayer_split` for the whole draw pass:
whatever happens (error or not), layer `i` of the result is its
post-collection drawable list with the `_dirty` of some prefix reset
and the remaining suffix untouched. -/
lemma drawPass_split (dbl : List (List Rect)) (gss : List (List Graphic))
    (hlen : dbl.length = gss.length) :
    ∀ (i : Nat) (gs0 : List Graphic), gss[i]? = some gs0 →
    ∃ a b, gs0 = a ++ b ∧
      (drawPass dbl gss).1[i]? =
        some (a.map (fun g => { g with dirty := ([] : List Rect) }) ++ b) := by
  intro i gs0 hi
  have hilt : i < gss.length := by
    by_contra hc
    rw [List.getElem?_eq_none (by omega)] at hi
    cases hi
  have hdlt : i < dbl.length := by omega
  have hrs : dbl[i]? = some dbl[i] := List.getElem?_eq_getElem hdlt
  have hz := zip_getElem2 dbl gss i dbl[i] gs0 hrs hi
  have hzl : (List.zip dbl gss).length = gss.length := by
    rw [List.length_zip, hlen]
    exact min_self _
  have h1 : (List.zip dbl gss).reverse[gss.length - 1 - i]? =
      (List.zip dbl gss)[(List.zip dbl gss).length - 1 - (gss.length - 1 - i)]? :=
    List.getElem?_reverse (by rw [hzl]; omega)
  have h2 : (List.zip dbl gss).length - 1 - (gss.length - 1 - i) = i := by
    rw [hzl]
    omega
  rw [h2, hz] at h1
  obtain ⟨a, b, hab, hres⟩ :=
    drawPassRev_split ((List.zip dbl gss).reverse) (gss.length - 1 - i) dbl[i] gs0 h1
  refine ⟨a, b, hab, ?_⟩
  unfold drawPass
  dsimp only
  have hrl : (drawPassRev (List.zip dbl gss).reverse).1.length = gss.length := by
    rw [drawPassRev_length, List.length_reverse, hzl]
  rw [List.getElem?_reverse (by rw [hrl]; omega), hrl]
  exact hres

def c6a : Graphic :=
  ⟨[], false, true, ⟨0, 0, 2, 2⟩, ⟨0, 0, 2, 2⟩, some [], fun _ => some true, true⟩

def c6b : Graphic :=
  ⟨[], true, true, ⟨0, 0, 2, 2⟩, ⟨0, 0, 2, 2⟩, none, fun _ => some true, true⟩

/-- C6 counterexample: drawable `c6a` (visibility toggled on) is
processed first and its `was_visible` cache is updated to `true`; then
drawable `c6b`'s pre-draw hook fails.  The call aborts with the error,
but `c6a`'s dirty-state is not left as it was before the call: its
`was_visible` changed from `false` to `true`, so the claim that every
drawable's dirty-state is left untouched on a callback failure is
false. -/
theorem C6_counterexample :
    (fastdraw [[c6a, c6b]] []).out = FdOut.err ∧
    c6a.wasVisible = false ∧
    ((fastdraw [[c6a, c6b]] []).gs.map (fun l => l.map (fun g => g.wasVisible)))
      = [[true, true]] :=
  ⟨rfl, rfl, rfl⟩

/-- C6 amended: on any drawable-callback failure the call aborts
immediately with the error, the failing drawable and every drawable not
yet processed keep their dirty-state unchanged, and mutations already
performed are not rolled back.  Three cases, one per callback.  On a
`_pre_draw` failure at layer `i`, position `j` (all drawables before it
in processing order having succeeded): layers above `i` and the
remainder of layer `i` from `j` on are returned exactly as passed in,
while every drawable processed earlier keeps its performed mutations
(`was_visible` updated to `visible`, `_dirty` replaced by the hook
output).  On an `_opaque_in` failure (the occlusion pass returns the
error): the drawables are returned in their post-collection states,
none of the collection mutations undone.  On a `_draw` failure: the
drawables are returned as the draw pass left them, each layer a prefix
of drawables whose `_dirty` reset persists followed by its untouched
post-collection suffix. -/
theorem C6_amended (gss : List (List Graphic)) (D0 : List Rect) :
    (∀ (i j : Nat) (gs : List Graphic) (g : Graphic),
      gss[i]? = some gs → gs[j]? = some g → g.preDrawRes = none →
      (∀ (i2 : Nat) (gs2 : List Graphic), gss[i2]? = some gs2 →
        ∀ (j2 : Nat) (g2 : Graphic), gs2[j2]? = some g2 →
        (i2 < i ∨ (i2 = i ∧ j2 < j)) → g2.preDrawRes.isSome = true) →
      (fastdraw gss D0).out = FdOut.err ∧
      (∀ i2 : Nat, i < i2 → (fastdraw gss D0).gs[i2]? = gss[i2]?) ∧
      (∃ gs1, (fastdraw gss D0).gs[i]? = some gs1 ∧
        (∀ j2 : Nat, j ≤ j2 → gs1[j2]? = gs[j2]?) ∧
        (∀ (j2 : Nat) (g2 : Graphic), j2 < j → gs[j2]? = some g2 →
          ∃ g1 d, gs1[j2]? = some g1 ∧ g2.preDrawRes = some d ∧
            g1.wasVisible = g2.visible ∧ g1.dirty = d)) ∧
      (∀ (i2 : Nat) (gs2 : List Graphic), i2 < i → gss[i2]? = some gs2 →
        ∃ gs1, (fastdraw gss D0).gs[i2]? = some gs1 ∧
        ∀ (j2 : Nat) (g2 : Graphic), gs2[j2]? = some g2 →
          ∃ g1 d, gs1[j2]? = some g1 ∧ g2.preDrawRes = some d ∧
            g1.wasVisible = g2.visible ∧ g1.dirty = d)) ∧
    (∀ (D : List Rect) (gss1 : List (List Graphic)),
      collectAll D0 gss = (D, gss1, false) → D ≠ [] →
      cullLayers D [] gss1 = none →
      (fastdraw gss D0).out = FdOut.err ∧
      (fastdraw gss D0).gs = gss1 ∧
      (∀ (i : Nat) (gs : List Graphic), gss[i]? = some gs →
        ∃ gs1, (fastdraw gss D0).gs[i]? = some gs1 ∧
        ∀ (j : Nat) (g : Graphic), gs[j]? = some g →
          ∃ g1 d, gs1[j]? = some g1 ∧ g.preDrawRes = some d ∧
            g1.wasVisible = g.visible ∧ g1.dirty = d)) ∧
    (∀ (D : List Rect) (gss1 : List (List Graphic)) (dbl : List (List Rect))
        (opf : List Rect),
      collectAll D0 gss = (D, gss1, false) → D ≠ [] →
      cullLayers D [] gss1 = some (dbl, opf) →
      (drawPass dbl gss1).2.2 = true →
      (fastdraw gss D0).out = FdOut.err ∧
      (fastdraw gss D0).gs = (drawPass dbl gss1).1 ∧
      (∀ (i : Nat) (gs0 : List Graphic), gss1[i]? = some gs0 →
        ∃ a b, gs0 = a ++ b ∧
          (fastdraw gss D0).gs[i]? =
            some (a.map (fun g => { g with dirty := ([] : List Rect) }) ++ b))) := by
  refine ⟨?_, ?_, ?_⟩
  · intro i j gs g hgs hg hfail hmin
    obtain ⟨hflag, hup, hat, hpre⟩ := collectAll_err gss i D0 gs j g hgs hg hfail hmin
    unfold fastdraw
    dsimp only
    rw [if_pos hflag]
    exact ⟨rfl, hup, hat, hpre⟩
  · intro D gss1 hcol hne hcul
    rcases fastdraw_cases gss D0 D gss1 hcol with ⟨hD, _⟩ | ⟨_, _, he⟩ |
        ⟨dbl2, opf2, _, hcl, _⟩
    · exact absurd hD hne
    · rw [he]
      refine ⟨rfl, rfl, ?_⟩
      intro i gs hgs
      have hs := collectAll_spec gss D0 (by rw [hcol]) i gs hgs
      rw [hcol] at hs
      exact hs
    · rw [hcul] at hcl
      cases hcl
  · intro D gss1 dbl opf hcol hne hcul hflag
    rcases fastdraw_cases gss D0 D gss1 hcol with ⟨hD, _⟩ | ⟨_, hnone, _⟩ |
        ⟨dbl2, opf2, _, hcl, ⟨_, he⟩ | ⟨hfl, _⟩⟩
    · exact absurd hD hne
    · rw [hcul] at hnone
      cases hnone
    · rw [hcul] at hcl
      have hd : dbl = dbl2 := (Prod.mk.inj (Option.some.inj hcl)).1
      subst hd
      rw [he]
      refine ⟨rfl, rfl, ?_⟩
      intro i gs0 hgs0
      have hlen : dbl.length = gss1.length := cullLayers_length gss1 D [] dbl opf hcul
      exact drawPass_split dbl gss1 hlen i gs0 hgs0
    · rw [hcul] at hcl
      have hd : dbl = dbl2 := (Prod.mk.inj (Option.some.inj hcl)).1
      subst hd
      rw [hflag] at hfl
      cases hfl

theorem C6_witness :
    (fastdraw [[c6b]] []).out = FdOut.err ∧
    (∀ i2 : Nat, 0 < i2 →
      (fastdraw [[c6b]] []).gs[i2]? = ([[c6b]] : List (List Graphic))[i2]?) ∧
    (∃ gs1, (fastdraw [[c6b]] []).gs[0]? = some gs1 ∧
      (∀ j2 : Nat, 0 ≤ j2 → gs1[j2]? = ([c6b] : List Graphic)[j2]?) ∧
      (∀ (j2 : Nat) (g2 : Graphic), j2 < 0 → ([c6b] : List Graphic)[j2]? = some g2 →
        ∃ g1 d, gs1[j2]? = some g1 ∧ g2.preDrawRes = some d ∧
          g1.wasVisible = g2.visible ∧ g1.dirty = d)) ∧
    (∀ (i2 : Nat) (gs2 : List Graphic), i2 < 0 →
      ([[c6b]] : List (List Graphic))[i2]? = some gs2 →
      ∃ gs1, (fastdraw [[c6b]] []).gs[i2]? = some gs1 ∧
      ∀ (j2 : Nat) (g2 : Graphic), gs2[j2]? = some g2 →
        ∃ g1 d, gs1[j2]? = some g1 ∧ g2.preDrawRes = some d ∧
          g1.wasVisible = g2.visible ∧ g1.dirty = d) :=
  (C6_amended [[c6b]] []).1 0 0 [c6b] c6b rfl rfl rfl
    (fun i2 gs2 h1 j2 g2 h2 h3 => absurd h3 (by omega))

/-- C10: on every call whose collection pass completes, each drawable's
pre-draw hook was invoked (its result is `some`) and its `was_visible`
cache holds its current `visible` value, and its `_dirty` is exactly
what the hook produced; `_dirty` is replaced by the empty list only when
the draw pass runs, so on the `Py_False` fast path the post-hook dirty
lists are left untouched. -/
theorem C10_collection_effects (gss gss1 : List (List Graphic)) (D0 D : List Rect)
    (h : collectAll D0 gss = (D, gss1, false)) :
    (∀ (i : Nat) (gs : List Graphic), gss[i]? = some gs →
      ∃ gs1, gss1[i]? = some gs1 ∧
      ∀ (j : Nat) (g : Graphic), gs[j]? = some g →
      ∃ g1 d, gs1[j]? = some g1 ∧
        g.preDrawRes = some d ∧ g1.wasVisible = g.visible ∧ g1.dirty = d) ∧
    ((fastdraw gss D0).out = FdOut.noDraw → (fastdraw gss D0).gs = gss1) ∧
    (∀ rs, (fastdraw gss D0).out = FdOut.done rs →
      ∀ gs1 ∈ (fastdraw gss D0).gs, ∀ g1 ∈ gs1, g1.dirty = ([] : List Rect)) := by
  refine ⟨?_, ?_, ?_⟩
  · intro i gs hgs
    have hs := collectAll_spec gss D0 (by rw [h]) i gs hgs
    rwa [h] at hs
  · intro hnd
    rcases fastdraw_cases gss D0 D gss1 h with ⟨_, he⟩ | ⟨_, _, he⟩ |
        ⟨dbl, opf, _, _, ⟨_, he⟩ | ⟨_, he⟩⟩
    · rw [he]
    · rw [he] at hnd
      cases hnd
    · rw [he] at hnd
      cases hnd
    · rw [he] at hnd
      cases hnd
  · intro rs hdone
    rcases fastdraw_cases gss D0 D gss1 h with ⟨_, he⟩ | ⟨_, _, he⟩ |
        ⟨dbl, opf, _, _, ⟨_, he⟩ | ⟨hflag, he⟩⟩
    · rw [he] at hdone
      cases hdone
    · rw [he] at hdone
      cases hdone
    · rw [he] at hdone
      cases hdone
    · rw [he]
      exact drawPass_dirty dbl gss1 hflag

theorem C10_witness :
    ∃ gs1, ([[{ idleGraphic ⟨0, 0, 4, 4⟩ with dirty := [], wasVisible := true }]] :
        List (List Graphic))[0]? = some gs1 ∧
      ∀ (j : Nat) (g : Graphic), ([idleGraphic ⟨0, 0, 4, 4⟩] : List Graphic)[j]? = some g →
      ∃ g1 d, gs1[j]? = some g1 ∧
        g.preDrawRes = some d ∧ g1.wasVisible = g.visible ∧ g1.dirty = d :=
  (C10_collection_effects [[idleGraphic ⟨0, 0, 4, 4⟩]]
    [[{ idleGraphic ⟨0, 0, 4, 4⟩ with dirty := [], wasVisible := true }]]
    [⟨0, 0, 1, 1⟩] [⟨0, 0, 1, 1⟩] rfl).1 0 [idleGraphic ⟨0, 0, 4, 4⟩] rfl

/-!
## Idempotence of the disjointing step

`mk_disjoint` output is in "row form": non-degenerate rectangles,
grouped into bands of equal `y`-extent listed top to bottom, each band
listed left to right with strict gaps.  Running `mk_disjoint` again with
no removed list reproduces a row-form list exactly.
-/

lemma pairwise_sym_cases {α : Type} (R : α → α → Prop) :
    ∀ (L : List α), L.Pairwise R → ∀ a b, a ∈ L → b ∈ L →
    a = b ∨ R a b ∨ R b a := by
  intro L
  induction L with
  | nil =>
    intro _ a b ha
    exact absurd ha (List.not_mem_nil a)
  | cons x t ih =>
    intro h a b ha hb
    obtain ⟨hx, ht⟩ := List.pairwise_cons.mp h
    rcases List.mem_cons.mp ha with rfl | ha2
    · rcases List.mem_cons.mp hb with rfl | hb2
      · exact Or.inl rfl
      · exact Or.inr (Or.inl (hx b hb2))
    · rcases List.mem_cons.mp hb with rfl | hb2
      · exact Or.inr (Or.inr (hx a ha2))
      · exact ih ht a b ha2 hb2

lemma eidx_lt_eidx (l : List Int) (h : l.Sorted (· < ·)) (a b : Int)
    (ha : a ∈ l) (hb : b ∈ l) (hab : a < b) : eidx l a < eidx l b := by
  rw [lt_eidx_iff l h b hb (eidx l a) (eidx_lt_length l a ha), nth_eidx l a ha]
  exact hab

lemma nth_mem (l : List Int) (i : Nat) (hi : i < l.length) : nth l i ∈ l := by
  rw [nth, List.getD_eq_getElem l 0 hi]
  exact List.getElem_mem hi

lemma eidx_consecutive (l : List Int) (h : l.Sorted (· < ·)) (a b : Int)
    (ha : a ∈ l) (hb : b ∈ l) (hab : a < b)
    (hno : ∀ v ∈ l, ¬(a < v ∧ v < b)) : eidx l b = eidx l a + 1 := by
  have hlt := eidx_lt_eidx l h a b ha hb hab
  by_contra hc
  have hgap : eidx l a + 1 < eidx l b := by omega
  have hmem : nth l (eidx l a + 1) ∈ l :=
    nth_mem l (eidx l a + 1) (lt_trans hgap (eidx_lt_length l b hb))
  refine hno (nth l (eidx l a + 1)) hmem ⟨?_, ?_⟩
  · have := nth_lt_nth l h (eidx l a) (eidx l a + 1) (Nat.lt_succ_self _)
      (lt_trans hgap (eidx_lt_length l b hb))
    rwa [nth_eidx l a ha] at this
  · have := nth_lt_nth l h (eidx l a + 1) (eidx l b) hgap (eidx_lt_length l b hb)
    rwa [nth_eidx l b hb] at this

lemma flatMap_congr_mem {α β : Type} (l : List α) (f g : α → List β)
    (h : ∀ a ∈ l, f a = g a) : l.flatMap f = l.flatMap g := by
  induction l with
  | nil => rfl
  | cons x t ih =>
    rw [List.flatMap_cons, List.flatMap_cons, h x (List.mem_cons_self _ _),
      ih (fun a ha => h a (List.mem_cons_of_mem _ ha))]

lemma flatMap_eq_nil_of {α β : Type} (l : List α) (f : α → List β)
    (h : ∀ a ∈ l, f a = []) : l.flatMap f = [] := by
  induction l with
  | nil => rfl
  | cons x t ih =>
    rw [List.flatMap_cons, h x (List.mem_cons_self _ _),
      ih (fun a ha => h a (List.mem_cons_of_mem _ ha))]
    rfl

lemma flatMap_filter_key {α : Type} (key : α → Nat) (R : Nat) :
    ∀ (L : List α), (∀ x ∈ L, key x < R) →
    L.Pairwise (fun a b => key a ≤ key b) →
    ((List.range R).flatMap (fun i => L.filter (fun x => key x == i))) = L := by
  intro L
  induction L with
  | nil =>
    intro _ _
    apply flatMap_eq_nil_of
    intro a _
    rfl
  | cons x t ih =>
    intro hlt hp
    obtain ⟨hx, ht⟩ := List.pairwise_cons.mp hp
    have hkx : key x < R := hlt x (List.mem_cons_self _ _)
    have hfilter_lo : ∀ i, i < key x → t.filter (fun y => key y == i) = [] := by
      intro i hi
      rw [List.filter_eq_nil_iff]
      intro y hy
      have := hx y hy
      simp only [beq_iff_eq]
      omega
    have hsplit : List.range R
        = List.range' 0 (key x) ++ List.range' (key x) (R - key x) := by
      rw [List.range_eq_range']
      have h1 := List.range'_append 0 (key x) (R - key x) 1
      simp only [Nat.one_mul, Nat.zero_add] at h1
      have h2 : List.range' 0 (R - key x + key x) = List.range' 0 R := by
        congr 1
        omega
      rw [← h2]
      exact h1.symm
    have hcons : (List.range R).flatMap (fun i => (x :: t).filter (fun y => key y == i))
        = x :: (List.range R).flatMap (fun i => t.filter (fun y => key y == i)) := by
      rw [hsplit, List.flatMap_append, List.flatMap_append]
      have hlo1 : (List.range' 0 (key x)).flatMap
          (fun i => (x :: t).filter (fun y => key y == i)) = [] := by
        apply flatMap_eq_nil_of
        intro i hi
        rw [List.mem_range'_1] at hi
        rw [List.filter_cons]
        have hne : (key x == i) = false := by
          simp only [beq_eq_false_iff_ne, ne_eq]
          omega
        rw [hne]
        simp only [Bool.false_eq_true, if_false]
        exact hfilter_lo i (by omega)
      have hlo2 : (List.range' 0 (key x)).flatMap
          (fun i => t.filter (fun y => key y == i)) = [] := by
        apply flatMap_eq_nil_of
        intro i hi
        rw [List.mem_range'_1] at hi
        exact hfilter_lo i (by omega)
      rw [hlo1, hlo2]
      have hRk : R - key x = (R - key x - 1) + 1 := by omega
      rw [hRk, List.range'_succ, List.flatMap_cons, List.flatMap_cons]
      have hhead : (x :: t).filter (fun y => key y == key x)
          = x :: t.filter (fun y => key y == key x) := by
        rw [List.filter_cons]
        simp
      rw [hhead]
      have hhi : (List.range' (key x + 1) (R - key x - 1)).flatMap
          (fun i => (x :: t).filter (fun y => key y == i))
          = (List.range' (key x + 1) (R - key x - 1)).flatMap
            (fun i => t.filter (fun y => key y == i)) := by
        apply flatMap_congr_mem
        intro i hi
        rw [List.mem_range'_1] at hi
        rw [List.filter_cons]
        have hne : (key x == i) = false := by
          simp only [beq_eq_false_iff_ne, ne_eq]
          omega
        rw [hne]
        simp only [Bool.false_eq_true, if_false]
      rw [hhi]
      rfl
    rw [hcons, ih (fun y hy => hlt y (List.mem_cons_of_mem _ hy)) ht]

lemma runs_covFn (b : Nat → Bool) (m : Nat) (j : Nat) :
    covFn (runs b m) j ↔ (j < m ∧ b j = true) := by
  obtain ⟨p1, p2, _⟩ := runs_props b m
  constructor
  · rintro ⟨se, hse, h1, h2⟩
    obtain ⟨q1, q2, q3, _, _⟩ := p1 se hse
    exact ⟨by omega, q3 j h1 h2⟩
  · rintro ⟨h1, h2⟩
    obtain ⟨se, hse, hc1, hc2⟩ := p2 j h1 h2
    exact ⟨se, hse, hc1, hc2⟩

theorem mk_disjoint_rowform_fixed (L : List Rect)
    (hnd : ∀ r ∈ L, r.nonDeg = true)
    (hpw : L.Pairwise rectBefore) :
    mk_disjoint L [] = L := by
  have hxsorted := xEdges_sorted L
  have hysorted := yEdges_sorted L
  have hedges : ∀ r ∈ L, r.x ∈ xEdges L ∧ r.x + r.w ∈ xEdges L ∧
      r.y ∈ yEdges L ∧ r.y + r.h ∈ yEdges L := fun r hr => edges_present L r hr
  have hndI : ∀ r ∈ L, 0 < r.w ∧ 0 < r.h := by
    intro r hr
    have h1 := hnd r hr
    unfold Rect.nonDeg at h1
    simp only [Bool.and_eq_true, decide_eq_true_eq] at h1
    exact h1
  have hnoy : ∀ r ∈ L, ∀ v ∈ yEdges L, ¬(r.y < v ∧ v < r.y + r.h) := by
    intro r hr v hv hcon
    rw [mem_yEdges] at hv
    obtain ⟨r2, hr2, hvv⟩ := hv
    have h2nd := hndI r2 hr2
    have h1nd := hndI r hr
    rcases pairwise_sym_cases rectBefore L hpw r r2 hr hr2 with heq | hbef | hbef
    · subst heq
      rcases hvv with rfl | rfl <;> omega
    · rcases hbef with ⟨hy, hh, _⟩ | hy <;> rcases hvv with rfl | rfl <;> omega
    · rcases hbef with ⟨hy, hh, _⟩ | hy <;> rcases hvv with rfl | rfl <;> omega
  have hconsec : ∀ r ∈ L, eidx (yEdges L) (r.y + r.h) = eidx (yEdges L) r.y + 1 := by
    intro r hr
    have h1nd := hndI r hr
    exact eidx_consecutive (yEdges L) hysorted r.y (r.y + r.h)
      (hedges r hr).2.2.1 (hedges r hr).2.2.2 (by omega) (fun v hv => hnoy r hr v hv)
  have hkey_lt : ∀ r ∈ L, eidx (yEdges L) r.y < (yEdges L).length - 1 := by
    intro r hr
    have h1 := eidx_lt_length (yEdges L) (r.y + r.h) (hedges r hr).2.2.2
    have h2 := hconsec r hr
    omega
  have hkey_mono : L.Pairwise
      (fun a b => eidx (yEdges L) a.y ≤ eidx (yEdges L) b.y) := by
    refine hpw.imp_of_mem ?_
    intro a b ha hb hab
    rcases hab with ⟨hy, _, _⟩ | hy
    · rw [hy]
    · have h1nd := hndI a ha
      have hyy : a.y < b.y := by omega
      exact le_of_lt (eidx_lt_eidx (yEdges L) hysorted a.y b.y
        (hedges a ha).2.2.1 (hedges b hb).2.2.1 hyy)
  have hmark : ∀ r ∈ L, ∀ i j, (markCond (xEdges L) (yEdges L) r i j = true ↔
      (i = eidx (yEdges L) r.y ∧ eidx (xEdges L) r.x ≤ j ∧
        j < eidx (xEdges L) (r.x + r.w))) := by
    intro r hr i j
    have h1nd := hndI r hr
    unfold markCond
    simp only [Bool.and_eq_true, decide_eq_true_eq]
    rw [hconsec r hr]
    constructor
    · rintro ⟨⟨⟨⟨⟨_, _⟩, h3⟩, h4⟩, h5⟩, h6⟩
      exact ⟨by omega, h5, h6⟩
    · rintro ⟨h1, h2, h3⟩
      exact ⟨⟨⟨⟨⟨by omega, by omega⟩, by omega⟩, by omega⟩, h2⟩, h3⟩
  have haddany : ∀ i j, (addOnly (gridFlag L [] (xEdges L) (yEdges L)) i j = true ↔
      ∃ r ∈ L, markCond (xEdges L) (yEdges L) r i j = true) := by
    intro i j
    rw [addOnly_gridFlag_iff]
    constructor
    · rintro ⟨h1, _⟩
      exact h1
    · intro h1
      refine ⟨h1, ?_⟩
      rintro ⟨c, hc, _⟩
      exact absurd hc (List.not_mem_nil c)
  have hrow : ∀ i,
      runs (addOnly (gridFlag L [] (xEdges L) (yEdges L)) i) ((xEdges L).length - 1)
        = (L.filter (fun r => eidx (yEdges L) r.y == i)).map
            (fun r => (eidx (xEdges L) r.x, eidx (xEdges L) (r.x + r.w))) := by
    intro i
    apply runs_unique
    · intro se hse
      obtain ⟨p1, _, _⟩ := runs_props
        (addOnly (gridFlag L [] (xEdges L) (yEdges L)) i) ((xEdges L).length - 1)
      exact (p1 se hse).1
    · obtain ⟨_, _, p3⟩ := runs_props
        (addOnly (gridFlag L [] (xEdges L) (yEdges L)) i) ((xEdges L).length - 1)
      exact p3
    · intro se hse
      rw [List.mem_map] at hse
      obtain ⟨r, hrb, rfl⟩ := hse
      rw [List.mem_filter] at hrb
      obtain ⟨hrL, _⟩ := hrb
      have h1nd := hndI r hrL
      exact eidx_lt_eidx (xEdges L) hxsorted r.x (r.x + r.w)
        (hedges r hrL).1 (hedges r hrL).2.1 (by omega)
    · rw [List.pairwise_map]
      refine (hpw.filter _).imp_of_mem ?_
      intro a b ha hb hab
      rw [List.mem_filter] at ha hb
      obtain ⟨haL, hak⟩ := ha
      obtain ⟨hbL, hbk⟩ := hb
      simp only [beq_iff_eq] at hak hbk
      rcases hab with ⟨_, _, hx⟩ | hy
      · exact eidx_lt_eidx (xEdges L) hxsorted (a.x + a.w) b.x
          (hedges a haL).2.1 (hedges b hbL).1 hx
      · exfalso
        have hya : nth (yEdges L) i = a.y := by
          rw [← hak]
          exact nth_eidx (yEdges L) a.y (hedges a haL).2.2.1
        have hyb : nth (yEdges L) i = b.y := by
          rw [← hbk]
          exact nth_eidx (yEdges L) b.y (hedges b hbL).2.2.1
        have h1nd := hndI a haL
        omega
    · intro t
      rw [runs_covFn]
      constructor
      · rintro ⟨htm, hbt⟩
        rw [haddany] at hbt
        obtain ⟨r, hrL, hmk⟩ := hbt
        rw [hmark r hrL] at hmk
        obtain ⟨hkey, hc1, hc2⟩ := hmk
        refine ⟨(eidx (xEdges L) r.x, eidx (xEdges L) (r.x + r.w)), ?_, hc1, hc2⟩
        rw [List.mem_map]
        refine ⟨r, ?_, rfl⟩
        rw [List.mem_filter]
        refine ⟨hrL, ?_⟩
        simp only [beq_iff_eq]
        omega
      · rintro ⟨se, hse, h1, h2⟩
        rw [List.mem_map] at hse
        obtain ⟨r, hrb, rfl⟩ := hse
        rw [List.mem_filter] at hrb
        obtain ⟨hrL, hrk⟩ := hrb
        simp only [beq_iff_eq] at hrk
        constructor
        · have := eidx_lt_length (xEdges L) (r.x + r.w) (hedges r hrL).2.1
          simp only at h2
          omega
        · rw [haddany]
          refine ⟨r, hrL, ?_⟩
          rw [hmark r hrL]
          exact ⟨hrk.symm, h1, h2⟩
  have hemit : ∀ i,
      ((L.filter (fun r => eidx (yEdges L) r.y == i)).map
        (fun r => (eidx (xEdges L) r.x, eidx (xEdges L) (r.x + r.w)))).map
        (runRect (xEdges L) (yEdges L) i)
      = L.filter (fun r => eidx (yEdges L) r.y == i) := by
    intro i
    rw [List.map_map]
    have hpt : ∀ r ∈ L.filter (fun r => eidx (yEdges L) r.y == i),
        (runRect (xEdges L) (yEdges L) i ∘
          fun r => (eidx (xEdges L) r.x, eidx (xEdges L) (r.x + r.w))) r = id r := by
      intro r hrb
      rw [List.mem_filter] at hrb
      obtain ⟨hrL, hrk⟩ := hrb
      simp only [beq_iff_eq] at hrk
      have hx1 : nth (xEdges L) (eidx (xEdges L) r.x) = r.x :=
        nth_eidx (xEdges L) r.x (hedges r hrL).1
      have hx2 : nth (xEdges L) (eidx (xEdges L) (r.x + r.w)) = r.x + r.w :=
        nth_eidx (xEdges L) (r.x + r.w) (hedges r hrL).2.1
      have hy1 : nth (yEdges L) i = r.y := by
        rw [← hrk]
        exact nth_eidx (yEdges L) r.y (hedges r hrL).2.2.1
      have hy2 : nth (yEdges L) (i + 1) = r.y + r.h := by
        have hcc := hconsec r hrL
        rw [← hrk, ← hcc]
        exact nth_eidx (yEdges L) (r.y + r.h) (hedges r hrL).2.2.2
      obtain ⟨rx, ry, rw0, rh⟩ := r
      simp only [Function.comp, id, runRect, Rect.mk.injEq] at hx1 hx2 hy1 hy2 ⊢
      refine ⟨hx1, hy1, by omega, by omega⟩
    rw [List.map_congr_left hpt, List.map_id]
  rw [mk_disjoint_eq_spec]
  unfold specRowRects
  dsimp only
  rw [List.append_nil]
  have hflat : (List.range ((yEdges L).length - 1)).flatMap
      (fun i => (runs (addOnly (gridFlag L [] (xEdges L) (yEdges L)) i)
        ((xEdges L).length - 1)).map (runRect (xEdges L) (yEdges L) i))
      = (List.range ((yEdges L).length - 1)).flatMap
        (fun i => L.filter (fun r => eidx (yEdges L) r.y == i)) := by
    apply flatMap_congr_mem
    intro i hi
    rw [hrow i, hemit i]
  rw [hflat]
  exact flatMap_filter_key (fun r => eidx (yEdges L) r.y) ((yEdges L).length - 1) L
    hkey_lt hkey_mono

/-- C5: applying `mk_disjoint` with an empty removed list to the output
of `mk_disjoint A B` reproduces exactly the same rectangle list —
idempotence of the disjointing step under the row-wise merge policy. -/
theorem C5_idempotent (A B : List Rect) :
    mk_disjoint (mk_disjoint A B) [] = mk_disjoint A B :=
  mk_disjoint_rowform_fixed (mk_disjoint A B) (mk_disjoint_nonDeg A B)
    (mk_disjoint_rowform A B)
